import Mathlib

/-!
Formal model of the student-stock queued-submission pipeline
(`scripts/process_queue.cjs` and the `queue_submission` scripts).

Text is modelled as `List Char`; JSON values as the inductive `Json`;
the file system slices the scripts touch (queue file, cooldown file,
target HTML documents, log directories) as explicit state.  JavaScript
exceptions raised by calling string methods on non-string values are
modelled with `Except Unit`.
-/

/-- JSON values, as produced by `JSON.parse`.  Numbers are modelled as
integers (no claim involves fractional numbers). -/
inductive Json : Type
  | null : Json
  | bool : Bool → Json
  | num : Int → Json
  | str : String → Json
  | arr : List Json → Json
  | obj : List (String × Json) → Json
deriving Repr

/-- JavaScript truthiness of a JSON value (`undefined` is modelled as a
missing `Option`, not as a `Json`). -/
def truthy : Json → Bool
  | Json.null => false
  | Json.bool b => b
  | Json.num n => n ≠ 0
  | Json.str s => s ≠ ""
  | Json.arr _ => true
  | Json.obj _ => true

/-- Is the JSON value an array (`Array.isArray`)? -/
def Json.isArr : Json → Bool
  | Json.arr _ => true
  | _ => false

/-- Is the JSON value a string? -/
def Json.isStr : Json → Bool
  | Json.str _ => true
  | _ => false

/-- Property lookup on a parsed JSON object: the last occurrence of a
duplicated key wins (as in `JSON.parse`); `none` models `undefined`. -/
def lookupLast : List (String × Json) → String → Option Json
  | [], _ => none
  | (k', v) :: rest, k =>
    match lookupLast rest k with
    | some r => some r
    | none => if k' = k then some v else none

/-- JavaScript property access `sub.k` on a JSON value (`undefined`,
i.e. `none`, on non-objects and absent keys). -/
def getField : Json → String → Option Json
  | Json.obj fs, k => lookupLast fs k
  | _, _ => none

/-- The value of `sub.k` when it is truthy, `none` otherwise: the
building block of the `a.x || a.y || d` chains in the scripts. -/
def fieldOr (sub : Json) (k : String) : Option Json :=
  match getField sub k with
  | some v => if truthy v then some v else none
  | none => none

/-- Stringification of a JavaScript array element inside `Array.join`:
`null` becomes the empty string, nested arrays join recursively. -/
def jsArrElem : Json → String
  | Json.null => ""
  | Json.str s => s
  | Json.num n => toString n
  | Json.bool true => "true"
  | Json.bool false => "false"
  | Json.obj _ => "[object Object]"
  | Json.arr xs =>
    String.intercalate "," (xs.attach.map fun x =>
      match x with
      | ⟨y, _⟩ => jsArrElem y)
decreasing_by
  have h : sizeOf y < sizeOf xs := List.sizeOf_lt_of_mem ‹y ∈ xs›
  simp_wf
  omega

/-- JavaScript stringification as used in template literals. -/
def jsToString : Json → String
  | Json.str s => s
  | Json.num n => toString n
  | Json.bool true => "true"
  | Json.bool false => "false"
  | Json.null => "null"
  | Json.obj _ => "[object Object]"
  | Json.arr xs => String.intercalate "," (xs.map jsArrElem)

/-- A record is well formed when it is a JSON object all of whose field
values are strings — the shape of every `SubmissionRecord` the intake
scripts produce (spec section 3). -/
def isWF : Json → Bool
  | Json.obj fs => fs.all fun kv => kv.2.isStr
  | _ => false

/-- The `file_url` of a queued record: `sub.file_url || sub.url || ""`. -/
def fileUrlOf (sub : Json) : Json :=
  match fieldOr sub "file_url" with
  | some v => v
  | none =>
    match fieldOr sub "url" with
    | some v => v
    | none => Json.str ""

/-- Lowercasing a character (`String.prototype.toLowerCase`, ASCII part). -/
def lc (c : Char) : Char := c.toLower

/-- Value of the JavaScript bracket lookup `TARGET_MAP[ext]` (also of
`TARGET_MAP[ext] || null`): a page name from an own entry of the map; a
truthy non-string member inherited from `Object.prototype` (property
lookup walks the prototype chain, so e.g. `TARGET_MAP["constructor"]`
is the `Object` function); or nothing (`undefined` / `null`, both
falsy, behaviourally identical at every use site). -/
inductive Target : Type
  | page : String → Target
  | protoMember : Target
  | null : Target
deriving DecidableEq, Repr

/-- The member names a bracket lookup on a plain object literal can
reach through `Object.prototype`. -/
def PROTO_KEYS : List (List Char) :=
  ["constructor".data, "hasOwnProperty".data, "isPrototypeOf".data,
   "propertyIsEnumerable".data, "toLocaleString".data, "toString".data,
   "valueOf".data, "__defineGetter__".data, "__defineSetter__".data,
   "__lookupGetter__".data, "__lookupSetter__".data, "__proto__".data]

/-- The lookup `TARGET_MAP[ext]` of `process_queue`: the six own
entries, then the prototype chain, then `undefined`. -/
def TARGET_MAP (ext : List Char) : Target :=
  if ext = "mp3".data then Target.page "audio.html"
  else if ext = "gif".data then Target.page "gifs.html"
  else if ext = "jpg".data then Target.page "images.html"
  else if ext = "jpeg".data then Target.page "images.html"
  else if ext = "png".data then Target.page "images.html"
  else if ext = "webp".data then Target.page "images.html"
  else if PROTO_KEYS.contains ext then Target.protoMember
  else Target.null

/-- The part of the string before the first `?` (`url.split("?")[0]`). -/
def beforeQuery : List Char → List Char
  | [] => []
  | c :: cs => if c = '?' then [] else c :: beforeQuery cs

/-- The part after the last `.` — the whole string when there is no dot
(`lower.split(".").pop()`). -/
def lastDotSeg (l : List Char) : List Char :=
  ((l.reverse.takeWhile (fun c => c ≠ '.')).reverse)

/-- `chooseTargetByUrl` of `process_queue`: reject non-strings and the
empty string, strip the query string, lowercase, take the last
dot-separated component and look it up in `TARGET_MAP` — a lookup that
can land on an inherited `Object.prototype` member (truthy and
non-string), which later makes `path.join(REPO_ROOT, target)` throw. -/
def chooseTargetByUrl : Json → Target
  | Json.str s =>
    if s = "" then Target.null
    else TARGET_MAP (lastDotSeg ((beforeQuery s.data).map lc))
  | _ => Target.null

example : chooseTargetByUrl (Json.str "https://example.com/cat.GIF?x=1") =
    Target.page "gifs.html" := by
  decide

example : chooseTargetByUrl (Json.str "https://example.com/a.bmp") = Target.null := by
  decide

example : chooseTargetByUrl (Json.str "https://a/b.php?x=.gif") = Target.null := by
  decide

example : chooseTargetByUrl (Json.str "http://a/s.mp3?x=1") = Target.page "audio.html" := by
  decide

example : chooseTargetByUrl (Json.str "http://a/x.constructor") = Target.protoMember := by
  decide

example : chooseTargetByUrl (Json.str "http://a/x.__proto__") = Target.protoMember := by
  decide

example : chooseTargetByUrl (Json.str "http://a/x.toString") = Target.null := by
  decide

/-- JavaScript whitespace (the class `\s`, which is also the set trimmed
by `String.prototype.trim`). -/
def isJsWs (c : Char) : Bool :=
  c = ' ' || c = '\t' || c = '\n' || c = '\r' || c = '\x0b' || c = '\x0c' ||
  c = '\u00a0' || c = '\u1680' ||
  ('\u2000' ≤ c && c ≤ '\u200a') ||
  c = '\u2028' || c = '\u2029' || c = '\u202f' || c = '\u205f' ||
  c = '\u3000' || c = '\ufeff'

/-- Case-insensitively strip a (lowercase) pattern from the front of a
list, returning the remainder. -/
def stripCI : List Char → List Char → Option (List Char)
  | rem, [] => some rem
  | c :: cs, p :: ps => if lc c = p then stripCI cs ps else none
  | [], _ :: _ => none

/-- A quote character, the class `["']` of the marker regex. -/
def isQuote (c : Char) : Bool := c = '"' || c = '\x27'

/-- Does the list begin with `id=` + quote + the given id name + quote
(case-insensitive in the letters), i.e. the tail of the marker regex
`id=["']…["']`? -/
def idPatAt (idname : List Char) (l : List Char) : Bool :=
  match stripCI l ['i', 'd', '='] with
  | some (q1 :: r1) =>
    isQuote q1 &&
      (match stripCI r1 idname with
       | some (q2 :: _) => isQuote q2
       | _ => false)
  | _ => false

/-- Does the id pattern occur anywhere in the list? -/
def containsIdPat (idname : List Char) : List Char → Bool
  | [] => false
  | c :: cs => idPatAt idname (c :: cs) || containsIdPat idname cs

/-- The segment before the first `>`, when a `>` exists: what the greedy
`[^>]*` parts of the marker regex can range over. -/
def segUntilGt : List Char → Option (List Char)
  | [] => none
  | c :: cs => if c = '>' then some [] else (segUntilGt cs).map (fun s => c :: s)

/-- Match of `<div\s+[^>]*id=["']NAME["'][^>]*>` (case-insensitive) at
the head of the list, returning the length of the (backtracking-greedy)
match: the regex can match here iff the list starts with `<div` and one
whitespace character, a `>` follows, and the id pattern occurs before
that first `>`; the match then always ends just after that `>`. -/
def matchDivAt (idname : List Char) (l : List Char) : Option Nat :=
  match l with
  | c0 :: c1 :: c2 :: c3 :: c4 :: rest =>
    if c0 = '<' && lc c1 = 'd' && lc c2 = 'i' && lc c3 = 'v' && isJsWs c4 then
      match segUntilGt rest with
      | some seg => if containsIdPat idname seg then some (seg.length + 6) else none
      | none => none
    else none
  | _ => none

/-- Leftmost match of the marker regex: index and length. -/
def findDiv (idname : List Char) : List Char → Option (Nat × Nat)
  | [] => none
  | c :: cs =>
    match matchDivAt idname (c :: cs) with
    | some n => some (0, n)
    | none => (findDiv idname cs).map (fun p => (p.1 + 1, p.2))

/-- Does the list begin (case-insensitively) with `</body>`? -/
def bodyCloseAt (l : List Char) : Bool := (stripCI l "</body>".data).isSome

/-- Leftmost index of `</body>` (case-insensitive). -/
def findBodyClose : List Char → Option Nat
  | [] => none
  | c :: cs => if bodyCloseAt (c :: cs) then some 0 else (findBodyClose cs).map (· + 1)

/-- Text splice used by both `insertIntoHtmlAtTop` variants:
`html.slice(0, pos) + "\n" + snippet + "\n" + html.slice(pos)`. -/
def splice (html : List Char) (pos : Nat) (snippet : List Char) : List Char :=
  html.take pos ++ '\n' :: (snippet ++ '\n' :: html.drop pos)

/-- `insertIntoHtmlAtTop` of the second `process_queue` variant
(no fallback): fail when the file is missing (`none`) or when the
`submissions` marker is absent; otherwise splice the snippet directly
after the marker's opening tag. -/
def insertIntoHtmlAtTop : Option (List Char) → List Char → Option (List Char)
  | none, _ => none
  | some html, snippet =>
    match findDiv "submissions".data html with
    | some (i, n) => some (splice html (i + n) snippet)
    | none => none

/-- `insertIntoHtmlAtTop` of the first `process_queue` variant: prefer
the `submissions` marker, fall back to `<div id="content">`, and as a
last resort insert before `</body>`. -/
def insertIntoHtmlAtTopA : Option (List Char) → List Char → Option (List Char)
  | none, _ => none
  | some html, snippet =>
    match findDiv "submissions".data html with
    | some (i, n) => some (splice html (i + n) snippet)
    | none =>
      match findDiv "content".data html with
      | some (i, n) => some (splice html (i + n) snippet)
      | none =>
        match findBodyClose html with
        | some i => some (splice html i snippet)
        | none => none

example : findDiv "submissions".data "<p><div  class=x id='submissions'><i>".data = some (3, 31) := by
  decide

example : findDiv "submissions".data "<div id=\"submissions\">".data = some (0, 22) := by
  decide

example : findDiv "submissions".data "<divx id=\"submissions\">".data = none := by
  decide

example : findDiv "submissions".data "<div id=\"submissionsx\">".data = none := by
  decide

example : insertIntoHtmlAtTopA (some "<body></body>".data) "X".data =
    some "<body>\nX\n</body>".data := by
  decide

/-- The recognised media extensions, in the alternation order of the
regexes `(jpg|jpeg|png|webp|gif|mp3)`. -/
def EXTS : List (List Char) := ["jpg".data, "jpeg".data, "png".data, "webp".data, "gif".data, "mp3".data]

/-- When one of the alternation's extensions is a case-insensitive
front of the list, its length.  (The alternatives are mutually
exclusive as heads, so the alternation order cannot matter.) -/
def extHere (l : List Char) : Option Nat :=
  match EXTS.find? (fun e => (stripCI l e).isSome) with
  | some e => some e.length
  | none => none

/-- Strip `https?://` (case-insensitive, the `s` optional) from the
front, returning the number of characters consumed and the remainder. -/
def stripHttp (l : List Char) : Option (Nat × List Char) :=
  match stripCI l "http".data with
  | none => none
  | some (c :: r1) =>
    if lc c = 's' then (stripCI r1 "://".data).map (fun r => (8, r))
    else (stripCI (c :: r1) "://".data).map (fun r => (7, r))
  | some [] => none

/-- The last backtracking position for `\S+\.(jpg|…|mp3)` inside the
maximal non-space run: the greatest index `d ≥ 1` holding a `.` that is
directly followed by a recognised extension.  Returns `(d, 1 + length
of the extension)`. -/
def lastValidDot (run : List Char) : Option (Nat × Nat) :=
  ((List.range run.length).filterMap (fun d =>
    if d = 0 then none
    else
      match run.drop d with
      | '.' :: after => (extHere after).map (fun k => (d, k + 1))
      | _ => none)).getLast?

/-- Match of `https?:\/\/\S+\.(jpg|jpeg|png|webp|gif|mp3)` (flag `i`)
anchored at the head of the list: `match[0]`, the text from `http`
through the last recognised extension in the non-space run. -/
def urlMatchAt (l : List Char) : Option (List Char) :=
  match stripHttp l with
  | none => none
  | some (k, r) =>
    let run := r.takeWhile (fun c => !(isJsWs c))
    match lastValidDot run with
    | some (d, n) => some (l.take (k + d + n))
    | none => none

/-- Leftmost match of the plain URL regex in a line (`String.match`
without anchors). -/
def findUrlMatch : List Char → Option (List Char)
  | [] => none
  | c :: cs =>
    match urlMatchAt (c :: cs) with
    | some m => some m
    | none => findUrlMatch cs

/-- As `lastValidDot`, but for the markdown-image regex, where the
captured URL must be directly followed by a literal `)`. -/
def lastValidDotParen (run : List Char) : Option (Nat × Nat) :=
  ((List.range run.length).filterMap (fun d =>
    if d = 0 then none
    else
      match run.drop d with
      | '.' :: after =>
        match extHere after with
        | some k =>
          match after.drop k with
          | ')' :: _ => some (d, k + 1)
          | _ => none
        | none => none
      | _ => none)).getLast?

/-- Match of `!\[[^\]]*\]\((https?:\/\/\S+\.(jpg|…|mp3))\)` (flag `i`)
anchored at the head: the captured group `mdMatch[1]`. -/
def mdUrlAt (l : List Char) : Option (List Char) :=
  match l with
  | c0 :: c1 :: r =>
    if c0 = '!' && c1 = '[' then
      match r.drop (r.takeWhile (fun c => c ≠ ']')).length with
      | c2 :: c3 :: r2 =>
        if c2 = ']' && c3 = '(' then
          match stripHttp r2 with
          | none => none
          | some (k, r3) =>
            match lastValidDotParen (r3.takeWhile (fun c => !(isJsWs c))) with
            | some (d, n) => some (r2.take (k + d + n))
            | none => none
        else none
      | _ => none
    else none
  | _ => none

/-- Leftmost match of the markdown-image regex, returning the captured
URL. -/
def findMdUrl : List Char → Option (List Char)
  | [] => none
  | c :: cs =>
    match mdUrlAt (c :: cs) with
    | some m => some m
    | none => findMdUrl cs

/-- Match of the `process_queue` fallback regex
`\.(jpg|jpeg|png|webp|gif|mp3)(?:$|[?#])` (flag `i`) anchored at the
head of the list, returning the captured extension lowercased
(`found[1].toLowerCase()`). -/
def boundaryExtAt : List Char → Option (List Char)
  | [] => none
  | c :: r =>
    if c = '.' then
      EXTS.findSome? (fun e =>
        match stripCI r e with
        | some [] => some e
        | some (c :: _) => if c = '?' || c = '#' then some e else none
        | none => none)
    else none

/-- Leftmost match of the fallback extension regex. -/
def findBoundaryExt : List Char → Option (List Char)
  | [] => none
  | c :: cs =>
    match boundaryExtAt (c :: cs) with
    | some e => some e
    | none => findBoundaryExt cs

example : findUrlMatch "see https://a.jpg please".data = some "https://a.jpg".data := by decide

example : findUrlMatch "HTTPS://x.y/a.JPeG?q=1".data = some "HTTPS://x.y/a.JPeG".data := by decide

example : findUrlMatch "https://a.jpg?x=c.mp3".data = some "https://a.jpg?x=c.mp3".data := by decide

example : findUrlMatch "https://.jpg".data = none := by decide

example : findUrlMatch "![alt](https://a.png)".data = some "https://a.png".data := by decide

example : findMdUrl "![alt](https://a.png) t".data = some "https://a.png".data := by decide

example : findBoundaryExt "https://a/b.php?x=.gif".data = some "gif".data := by decide

example : findBoundaryExt "https://a/b.gif.bmp".data = none := by decide

/-- Global single-character replacement, e.g. `s.replace(/</g, "&lt;")`. -/
def jsReplaceAll (c : Char) (r : List Char) : List Char → List Char
  | [] => []
  | x :: xs => if x = c then r ++ jsReplaceAll c r xs else x :: jsReplaceAll c r xs

/-- HTML-escape `<` and `>`: `.replace(/</g,"&lt;").replace(/>/g,"&gt;")`. -/
def escLtGt (l : List Char) : List Char :=
  jsReplaceAll '>' "&gt;".data (jsReplaceAll '<' "&lt;".data l)

/-- Escape double quotes: `.replace(/"/g, "&quot;")`. -/
def escQuot (l : List Char) : List Char :=
  jsReplaceAll '"' "&quot;".data l

/-- Coerce to a string for a JavaScript string-method call; non-strings
raise a `TypeError`, modelled as `Except.error`. -/
def asStr : Json → Except Unit (List Char)
  | Json.str s => Except.ok s.data
  | _ => Except.error ()

instance {e a : Type} [DecidableEq e] [DecidableEq a] : DecidableEq (Except e a) := fun x y =>
  match x, y with
  | Except.ok v, Except.ok w =>
    if h : v = w then Decidable.isTrue (by rw [h])
    else Decidable.isFalse (by intro hh; cases hh; exact h rfl)
  | Except.error v, Except.error w =>
    if h : v = w then Decidable.isTrue (by rw [h])
    else Decidable.isFalse (by intro hh; cases hh; exact h rfl)
  | Except.ok _, Except.error _ => Decidable.isFalse (by intro hh; cases hh)
  | Except.error _, Except.ok _ => Decidable.isFalse (by intro hh; cases hh)

/-- An apostrophe, spelled via its code point. -/
def apos : List Char := ['\x27']

/-- Does the lowercased URL end in `.mp3`
(`fileUrl.toLowerCase().endsWith(".mp3")`)? -/
def isAudioUrl (fu : List Char) : Bool :=
  ".mp3".data.isSuffixOf (fu.map lc)

/-- The `<audio>` card media element of the second `buildHtmlSnippet`. -/
def audioTag (fu : List Char) : List Char :=
  "<audio class=\"submission-media\" controls preload=\"none\"><source src=\"".data ++
    fu ++ "\"></audio>".data

/-- The `<img>` card media element of the second `buildHtmlSnippet`. -/
def imgTag (fu : List Char) (de : List Char) : List Char :=
  "<img class=\"submission-media\" src=\"".data ++ fu ++ "\" alt=\"".data ++
    escQuot de ++ "\" />".data

/-- The media element chosen by the second `buildHtmlSnippet`: an audio
player when the lowercased URL ends in `.mp3`, an image otherwise. -/
def mediaHtmlOf (fu : List Char) (de : List Char) : List Char :=
  if isAudioUrl fu then audioTag fu else imgTag fu de

/-- The part of the second variant's card template before the media
element: avatar derived from the username, display name and date. -/
def cardPre (username : Json) (nowStr : List Char) : List Char :=
  "\n  <div class=\"submission\">\n    <div class=\"submission-top\">\n      <img class=\"submission-pfp\" src=\"".data ++
  ("https://github.com/".data ++ (jsToString username).data ++ ".png".data) ++
  "\" alt=\"".data ++ (jsToString username).data ++ apos ++
  "s avatar\" width=\"40\" height=\"40\" />\n      <div class=\"submission-meta\">\n        <strong class=\"submission-name\">".data ++
  (jsToString username).data ++
  "</strong>\n        <span class=\"submission-date\">".data ++ nowStr ++
  "</span>\n      </div>\n    </div>\n    <div class=\"submission-body\">\n      ".data

/-- The part of the second variant's card template after the media
element: the HTML-escaped description paragraph. -/
def cardPost (de : List Char) : List Char :=
  "\n      <p class=\"submission-desc\">".data ++ escLtGt de ++
  "</p>\n    </div>\n  </div>\n".data

/-- `buildHtmlSnippet` of the second `process_queue` variant: the
submission card with avatar, name, date, media element and escaped
description.  `nowStr` stands for `new Date().toLocaleString()`.
Throws when a truthy non-string is subjected to `.toLowerCase()` or
`.replace()`. -/
def buildHtmlSnippet (sub : Json) (nowStr : List Char) : Except Unit (List Char) := do
  let username : Json := (fieldOr sub "username").getD (Json.str "unknown")
  let fileUrl : Json := fileUrlOf sub
  let desc : Json := (fieldOr sub "description").getD (Json.str "")
  let fu ← asStr fileUrl
  let de ← asStr desc
  pure (cardPre username nowStr ++ (mediaHtmlOf fu de ++ cardPost de))

/-- The container id of the first `buildHtmlSnippet`:
`(sub.name || sub.username || "submission").replace(/[^a-zA-Z0-9_-]/g, "-")`. -/
def nameIdOf (raw : List Char) : List Char :=
  raw.map (fun c =>
    if ('a' ≤ c && c ≤ 'z') || ('A' ≤ c && c ≤ 'Z') || ('0' ≤ c && c ≤ '9') ||
        c = '_' || c = '-' then c else '-')

/-- `buildHtmlSnippet` of the first `process_queue` variant: a plain
container with image, description paragraph and download button (this
variant never emits an audio element). -/
def buildHtmlSnippetA (sub : Json) : Except Unit (List Char) := do
  let rawName : Json :=
    (fieldOr sub "name").getD ((fieldOr sub "username").getD (Json.str "submission"))
  let rn ← asStr rawName
  let nameId := nameIdOf rn
  let fileUrl : Json := fileUrlOf sub
  let de ← asStr ((fieldOr sub "description").getD (Json.str ""))
  let desc := escLtGt de
  pure <|
    "\n<div id=\"".data ++ nameId ++ "\">\n  <img src=\"".data ++
    (jsToString fileUrl).data ++ "\" alt=\"".data ++ escQuot desc ++
    "\" />\n  <p>".data ++ desc ++ "</p>\n  <a href=\"".data ++
    (jsToString fileUrl).data ++
    "\" download><button type=\"button\">download</button></a>\n</div>\n".data

/-- The HTML documents, keyed by target file name; a missing key models
a missing file. -/
def Docs : Type := List (String × List Char)

instance : DecidableEq Docs := by
  unfold Docs
  infer_instance

/-- Read a document (`fs.existsSync` / `fs.readFileSync`). -/
def lookupDoc : Docs → String → Option (List Char)
  | [], _ => none
  | (k', v) :: rest, k => if k' = k then some v else lookupDoc rest k

/-- Write a document (`fs.writeFileSync`): replace, or create at the end. -/
def setDoc : Docs → String → List Char → Docs
  | [], k, v => [(k, v)]
  | (k', v') :: rest, k, v =>
    if k' = k then (k, v) :: rest else (k', v') :: setDoc rest k v

/-- The persisted queue file `submissions.json`: missing, holding text
that `JSON.parse` rejects, or holding a JSON value. -/
inductive QFile : Type
  | missing : QFile
  | malformed : QFile
  | val : Json → QFile

/-- `ensureFileExists(SUBMISSIONS_FILE, "[]")`: a missing queue file is
created holding the empty array. -/
def ensureQFile : QFile → QFile
  | QFile.missing => QFile.val (Json.arr [])
  | q => q

/-- Parsing the queue file as both scripts do: a parse failure is
caught and an empty queue is used; a parsed value that is not an array
(`!Array.isArray`) is replaced by the empty queue. -/
def readSubs : QFile → List Json
  | QFile.missing => []
  | QFile.malformed => []
  | QFile.val j =>
    match j with
    | Json.arr xs => xs
    | _ => []

/-- `COOLDOWN_MS = 3 * 60 * 1000`. -/
def COOLDOWN_MS : Int := 180000

/-- `MAX_PER_RUN = 5`. -/
def MAX_PER_RUN : Nat := 5

/-- The observable result kind of one `process_queue` run.  `crashed`
models an exception escaping `main` (the process exits non-zero). -/
inductive Outcome : Type
  | skipped : Outcome
  | idled : Outcome
  | processed : Nat → Outcome
  | crashed : Outcome
deriving DecidableEq, Repr

/-- State read by a drain run.  `now` is `Date.now()` at the cooldown
gate; `idleEndTime` and `endTime` are the values of `Date.now()` at the
two possible `writeCooldown()` call sites (after the two-minute idle
wait, resp. after the batch); `nowStr` is `new Date().toLocaleString()`
used in snippets. -/
structure DrainSt : Type where
  now : Int
  idleEndTime : Int
  endTime : Int
  nowStr : List Char
  cool : Option Int
  qfile : QFile
  docs : Docs

/-- State written by a drain run. -/
structure DrainRes : Type where
  outcome : Outcome
  cool : Option Int
  qfile : QFile
  docs : Docs

/-- Routing of the second `process_queue` variant:
`chooseTargetByUrl(fileUrl) || (sub.type ? TARGET_MAP[sub.type.toLowerCase()] : null)`;
a truthy non-string `sub.type` makes `.toLowerCase()` throw, and a
truthy `chooseTargetByUrl` result (page or prototype member) short-circuits
the fallback. -/
def targetOf (sub : Json) : Except Unit Target :=
  match chooseTargetByUrl (fileUrlOf sub) with
  | Target.null =>
    match fieldOr sub "type" with
    | none => Except.ok Target.null
    | some (Json.str t) => Except.ok (TARGET_MAP (t.data.map lc))
    | some _ => Except.error ()
  | t => Except.ok t

/-- Per-record step of the second `process_queue` variant's loop:
route by URL (with the `sub.type` fallback), build the card, insert it.
A falsy target skips the record with the documents untouched; a routing
result that is an inherited prototype member is truthy but non-string,
so `path.join(REPO_ROOT, target)` throws before anything is written; a
failed insertion leaves the documents untouched. -/
def processOne (nowStr : List Char) (docs : Docs) (sub : Json) : Except Unit Docs := do
  let target ← targetOf sub
  match target with
  | Target.null => pure docs
  | Target.protoMember => Except.error ()
  | Target.page tgt => do
    let snip ← buildHtmlSnippet sub nowStr
    match insertIntoHtmlAtTop (lookupDoc docs tgt) snip with
    | some newDoc => pure (setDoc docs tgt newDoc)
    | none => pure docs

/-- The batch loop of the second variant.  On a thrown exception the
documents mutated so far are kept (`Except.error` carries them) but the
loop aborts. -/
def foldProcess (nowStr : List Char) : Docs → List Json → Except Docs Docs
  | docs, [] => Except.ok docs
  | docs, sub :: rest =>
    match processOne nowStr docs sub with
    | Except.ok docs' => foldProcess nowStr docs' rest
    | Except.error _ => Except.error docs

/-- `main` of the second `process_queue` variant: cooldown gate, queue
bootstrap and parse, idle wait on an empty queue, otherwise
`splice(0, MAX_PER_RUN)`, the batch loop, re-persisting the remainder
and arming the cooldown.  An exception in the loop aborts the run
before the queue or cooldown files are rewritten. -/
def drainMain (st : DrainSt) : DrainRes :=
  if st.now - (st.cool.getD 0) < COOLDOWN_MS then
    ⟨Outcome.skipped, st.cool, st.qfile, st.docs⟩
  else
    let qf := ensureQFile st.qfile
    let subs := readSubs qf
    if subs.isEmpty then
      ⟨Outcome.idled, some st.idleEndTime, qf, st.docs⟩
    else
      let toProcess := subs.take MAX_PER_RUN
      let rest := subs.drop MAX_PER_RUN
      match foldProcess st.nowStr st.docs toProcess with
      | Except.ok docs' =>
        ⟨Outcome.processed toProcess.length, some st.endTime, QFile.val (Json.arr rest), docs'⟩
      | Except.error docs' => ⟨Outcome.crashed, st.cool, qf, docs'⟩

/-- `String.prototype.trim`. -/
def jsTrim (l : List Char) : List Char :=
  ((l.dropWhile isJsWs).reverse.dropWhile isJsWs).reverse

/-- Split on the literal character `\n` (`String.split('\n')`). -/
def splitNl : List Char → List (List Char)
  | [] => [[]]
  | '\n' :: rest => [] :: splitNl rest
  | c :: rest =>
    match splitNl rest with
    | [] => [[c]]
    | x :: xs => (c :: x) :: xs

/-- The debug preview of a snippet:
`snippet.trim().split('\n').slice(0, 6).join('\n')`. -/
def previewOf (snip : List Char) : List Char :=
  (((splitNl (jsTrim snip)).take 6).intersperse "\n".data).flatten

/-- The debug object the first `process_queue` variant writes under
`submissions_log/processed/` for every record (`targetPath` is kept as
the bare target file name; `REPO_ROOT` is not modelled). -/
structure DbgEntry : Type where
  username : Json
  name : Json
  fileUrl : Json
  decidedTarget : Option String
  targetPath : Option String
  targetExists : Bool
  inserted : Bool
  snippetPreview : Option (List Char)
  timestamp : List Char

/-- The `debug.username` and `debug.name` fields:
`sub.username || 'unknown'` and `sub.name || sub.username || null`. -/
def dbgName (sub : Json) : Json :=
  (fieldOr sub "name").getD ((fieldOr sub "username").getD Json.null)

/-- Routing of the first `process_queue` variant: `chooseTargetByUrl`
(whose truthy results, pages and prototype members alike, are kept),
then the fallback regex `\.(jpg|jpeg|png|webp|gif|mp3)(?:$|[?#])` over
`(fileUrl || '')`, whose captured extension is looked up in
`TARGET_MAP`. -/
def targetOfA (fileUrl : Json) : Except Unit Target :=
  match chooseTargetByUrl fileUrl with
  | Target.null =>
    match fileUrl with
    | Json.str s =>
      Except.ok
        (match findBoundaryExt s.data with
         | some e => TARGET_MAP e
         | none => Target.null)
    | j => if truthy j then Except.error () else Except.ok Target.null
  | t => Except.ok t

/-- The debug object as first assembled by the loop of the first
`process_queue` variant, before a target path is known. -/
def dbgBase (nowIso : List Char) (sub : Json) (target : Option String) : DbgEntry :=
  ⟨(fieldOr sub "username").getD (Json.str "unknown"), dbgName sub, fileUrlOf sub,
    target, none, false, false, none, nowIso⟩

/-- Per-record step of the first `process_queue` variant's loop,
returning the new documents and the debug entry it writes.  When the
routing lands on a prototype member (`path.join` throws) or building
the snippet throws, no debug entry is written for the record and the
loop aborts. -/
def processOneA (nowIso : List Char) (docs : Docs) (sub : Json) :
    Except Unit (Docs × DbgEntry) := do
  let target ← targetOfA (fileUrlOf sub)
  match target with
  | Target.null => pure (docs, dbgBase nowIso sub none)
  | Target.protoMember => Except.error ()
  | Target.page tgt => do
    let doc := lookupDoc docs tgt
    let snip ← buildHtmlSnippetA sub
    let entry : DbgEntry :=
      { dbgBase nowIso sub (some tgt) with
          targetPath := some tgt, targetExists := doc.isSome,
          snippetPreview := some (previewOf snip) }
    match insertIntoHtmlAtTopA doc snip with
    | some newDoc => pure (setDoc docs tgt newDoc, { entry with inserted := true })
    | none => pure (docs, entry)

/-- The batch loop of the first variant, accumulating debug entries. -/
def foldProcessA (nowIso : List Char) : Docs → List DbgEntry → List Json →
    Except (Docs × List DbgEntry) (Docs × List DbgEntry)
  | docs, dbg, [] => Except.ok (docs, dbg)
  | docs, dbg, sub :: rest =>
    match processOneA nowIso docs sub with
    | Except.ok (docs', e) => foldProcessA nowIso docs' (dbg ++ [e]) rest
    | Except.error _ => Except.error (docs, dbg)

/-- State written by a run of the first `process_queue` variant,
including the debug ledger. -/
structure DrainResA : Type where
  outcome : Outcome
  cool : Option Int
  qfile : QFile
  docs : Docs
  dbg : List DbgEntry

/-- `main` of the first `process_queue` variant: identical cooldown,
bootstrap, idle and batch structure, with the fallback routing, the
fallback insertion points and the per-record debug ledger. -/
def drainMainA (st : DrainSt) (nowIso : List Char) : DrainResA :=
  if st.now - (st.cool.getD 0) < COOLDOWN_MS then
    ⟨Outcome.skipped, st.cool, st.qfile, st.docs, []⟩
  else
    let qf := ensureQFile st.qfile
    let subs := readSubs qf
    if subs.isEmpty then
      ⟨Outcome.idled, some st.idleEndTime, qf, st.docs, []⟩
    else
      let toProcess := subs.take MAX_PER_RUN
      let rest := subs.drop MAX_PER_RUN
      match foldProcessA nowIso st.docs [] toProcess with
      | Except.ok (docs', dbg) =>
        ⟨Outcome.processed toProcess.length, some st.endTime, QFile.val (Json.arr rest),
          docs', dbg⟩
      | Except.error (docs', dbg) => ⟨Outcome.crashed, st.cool, qf, docs', dbg⟩

/-- Can the routing of the second `process_queue` variant reach an
inherited `Object.prototype` member for this record (in which case
`path.join` throws and the run crashes)?  `true` means it cannot. -/
def noProtoB (sub : Json) : Bool :=
  match chooseTargetByUrl (fileUrlOf sub) with
  | Target.protoMember => false
  | Target.page _ => true
  | Target.null =>
    match fieldOr sub "type" with
    | some (Json.str t) =>
      (match TARGET_MAP (t.data.map lc) with
       | Target.protoMember => false
       | _ => true)
    | _ => true

/-- As `noProtoB`, for the first variant (whose only prototype-reaching
lookup is the primary derivation: the fallback regex captures only the
six mapped extensions). -/
def noProtoA (sub : Json) : Bool :=
  match chooseTargetByUrl (fileUrlOf sub) with
  | Target.protoMember => false
  | _ => true

example : noProtoA (Json.obj [("file_url", Json.str "http://a/x.constructor")]) = false := by
  decide

example : noProtoB (Json.obj [("file_url", Json.str "x"), ("type", Json.str "__proto__")]) =
    false := by
  decide

/-- Split on the regex `\r?\n`: `\r\n` and `\n` separate lines, a lone
`\r` does not. -/
def splitRN : List Char → List (List Char)
  | [] => [[]]
  | '\r' :: '\n' :: rest => [] :: splitRN rest
  | '\n' :: rest => [] :: splitRN rest
  | c :: rest =>
    match splitRN rest with
    | [] => [[c]]
    | x :: xs => (c :: x) :: xs

/-- The line preprocessing of `parseIssueBody`:
`body.trim().split(/\r?\n/).map(l => l.trim()).filter(Boolean)`. -/
def prepLines (body : List Char) : List (List Char) :=
  ((splitRN (jsTrim body)).map jsTrim).filter (fun l => l ≠ [])

/-- The character class of the regex `.` (anything but a line
terminator). -/
def isDotChar (c : Char) : Bool :=
  !(c = '\n' || c = '\r' || c = '\u2028' || c = '\u2029')

/-- Match of the anchored line-1 regex `^\(([^)]+)\)\s*\[(.+)\]$`:
the raw captures (name, date). -/
def parseLine1 (l : List Char) : Option (List Char × List Char) :=
  match l with
  | '(' :: rest =>
    let name := rest.takeWhile (fun c => c ≠ ')')
    (match rest.drop name.length with
     | ')' :: r2 =>
       if name = [] then none
       else
         match r2.dropWhile isJsWs with
         | '[' :: r4 =>
           (match r4.reverse with
            | ']' :: dr =>
              let date := dr.reverse
              if date ≠ [] && date.all isDotChar then some (name, date) else none
            | _ => none)
         | _ => none
     | _ => none)
  | _ => none

/-- A validated submission record as built by `parseIssueBody` or the
manual fallback of `queue_submission`. -/
structure SubRec : Type where
  username : String
  name : String
  file_url : String
  description : String
  date : String
deriving DecidableEq, Repr

/-- The JSON object pushed onto the queue for a record. -/
def subToJson (r : SubRec) : Json :=
  Json.obj [("username", Json.str r.username), ("name", Json.str r.name),
    ("file_url", Json.str r.file_url), ("description", Json.str r.description),
    ("date", Json.str r.date)]

/-- `parseIssueBody` of the CommonJS `queue_submission` script: split
and clean the lines, require at least two, match line 1 against the
name/date pattern and line 2 against the plain URL regex (falling back
to the markdown-image regex), and build the record.  `nowIso` is
`new Date().toISOString()`, used when the bracketed date trims to the
empty string. -/
def parseIssueBody (uname : String) (nowIso : String) (body : List Char) : Option SubRec :=
  match prepLines body with
  | l0 :: l1 :: rest =>
    (match parseLine1 l0 with
     | none => none
     | some (rawName, rawDate) =>
       let name := jsTrim rawName
       let date := jsTrim rawDate
       let urlM :=
         match findUrlMatch l1 with
         | some u => some u
         | none => findMdUrl l1
       match urlM with
       | none => none
       | some url =>
         let desc := jsTrim ((rest.headD []))
         some ⟨uname, name.asString, url.asString, desc.asString,
           if date = [] then nowIso else date.asString⟩)
  | _ => none

example : parseLine1 "(alice) [Jan 1]".data = some ("alice".data, "Jan 1".data) := by decide

example : parseLine1 ['(', 'a', ')', ' ', '[', 'd', '\u2028', ']'] = none := by decide

example : parseIssueBody "alice" "T" "(alice) [Jan 1]\nhttps://a.jpg".data =
    some ⟨"alice", "alice", "https://a.jpg", "", "Jan 1"⟩ := by decide

/-- The environment variables read by `queue_submission` (the empty
string doubles for an unset variable, as both are falsy). -/
structure IntakeEnv : Type where
  USERNAME : String
  ISSUE_BODY : String
  FILE_URL : String
  DESCRIPTION : String

/-- `process.env.USERNAME || "unknown"`. -/
def usernameOf (env : IntakeEnv) : String :=
  if env.USERNAME = "" then "unknown" else env.USERNAME

/-- The new submission computed by `main` of `queue_submission`: the
issue-body grammar when `ISSUE_BODY` is truthy, else the manual
`FILE_URL` fallback, else nothing. -/
def intakeNewSub (env : IntakeEnv) (nowIso : String) : Option SubRec :=
  if env.ISSUE_BODY ≠ "" then parseIssueBody (usernameOf env) nowIso env.ISSUE_BODY.data
  else if env.FILE_URL ≠ "" then
    some ⟨usernameOf env, usernameOf env, env.FILE_URL, env.DESCRIPTION, nowIso⟩
  else none

/-- One file written by `logSubmission`: the sortable timestamp and the
username forming the file name `<ts>-<username>.json`, and the logged
JSON content. -/
structure LogEntry : Type where
  ts : String
  username : String
  content : Json

/-- The file-name timestamp:
`new Date().toISOString().replace(/[:.]/g, "-")`. -/
def tsOf (nowIso : String) : String :=
  (jsReplaceAll '.' "-".data (jsReplaceAll ':' "-".data nowIso.data)).asString

/-- State touched by one intake run: the queue file, the failure ledger
`submissions_log/failed/` and the success ledger `submissions_log/`. -/
structure IntakeSt : Type where
  qfile : QFile
  failLog : List LogEntry
  okLog : List LogEntry

/-- `main` of the CommonJS `queue_submission` script: bootstrap and
parse the queue file, compute the new submission, and either log the
failure (leaving the queue alone) or log the success and append the
record to the persisted queue. -/
def intakeMain (env : IntakeEnv) (nowIso : String) (st : IntakeSt) : IntakeSt :=
  let qf := ensureQFile st.qfile
  let subs := readSubs qf
  match intakeNewSub env nowIso with
  | none =>
    { qfile := qf,
      failLog := ⟨tsOf nowIso, usernameOf env,
        Json.obj [("username", Json.str (usernameOf env)),
                  ("body", Json.str env.ISSUE_BODY)]⟩ :: st.failLog,
      okLog := st.okLog }
  | some r =>
    { qfile := QFile.val (Json.arr (subs ++ [subToJson r])),
      failLog := st.failLog,
      okLog := ⟨tsOf nowIso, r.username, subToJson r⟩ :: st.okLog }

example :
    parseIssueBody "alice" "T" "(alice) [2024-01-01]\nhttps://example.com/cat.gif\nfunny cat".data =
      some ⟨"alice", "alice", "https://example.com/cat.gif", "funny cat", "2024-01-01"⟩ := by
  decide

example : parseIssueBody "alice" "T" "(alice) 2024\nhttps://a.gif".data = none := by decide

example : parseIssueBody "alice" "T" "(alice) [d]\nhttps://a.bmp".data = none := by decide

example :
    parseIssueBody "u" "T" "(n) [d]\r\n\r\n![x](https://a.b/c.PNG?q=2)".data =
      some ⟨"u", "n", "https://a.b/c.PNG", "", "d"⟩ := by
  decide

theorem lookupLast_mem {fs : List (String × Json)} {k : String} {v : Json}
    (h : lookupLast fs k = some v) : ∃ k', (k', v) ∈ fs := by
  induction fs with
  | nil => simp [lookupLast] at h
  | cons kv rest ih =>
    obtain ⟨k1, v1⟩ := kv
    rw [lookupLast] at h
    cases hr : lookupLast rest k with
    | some r =>
      rw [hr] at h
      cases h
      obtain ⟨k2, hk2⟩ := ih hr
      exact ⟨k2, List.mem_cons_of_mem _ hk2⟩
    | none =>
      rw [hr] at h
      by_cases hk : k1 = k
      · simp [hk] at h
        exact ⟨k1, by rw [h]; exact List.mem_cons_self _ _⟩
      · simp [hk] at h

theorem wf_field {sub : Json} {k : String} {v : Json} (hw : isWF sub = true)
    (hf : getField sub k = some v) : ∃ s, v = Json.str s := by
  cases sub <;> simp [getField] at hf
  next fs =>
    obtain ⟨k', hmem⟩ := lookupLast_mem hf
    rw [isWF, List.all_eq_true] at hw
    have hs := hw ⟨k', v⟩ hmem
    cases v <;> simp [Json.isStr] at hs ⊢

theorem wf_fieldOr {sub : Json} {k : String} {v : Json} (hw : isWF sub = true)
    (hf : fieldOr sub k = some v) : ∃ s, v = Json.str s := by
  rw [fieldOr] at hf
  cases hg : getField sub k with
  | none => rw [hg] at hf; cases hf
  | some w =>
    rw [hg] at hf
    dsimp only at hf
    by_cases ht : truthy w = true
    · rw [if_pos ht] at hf
      cases hf
      exact wf_field hw hg
    · rw [if_neg ht] at hf; cases hf

theorem wf_fileUrlOf {sub : Json} (hw : isWF sub = true) :
    ∃ s, fileUrlOf sub = Json.str s := by
  rw [fileUrlOf]
  cases h1 : fieldOr sub "file_url" with
  | some v => obtain ⟨s, rfl⟩ := wf_fieldOr hw h1; exact ⟨s, rfl⟩
  | none =>
    cases h2 : fieldOr sub "url" with
    | some v => obtain ⟨s, rfl⟩ := wf_fieldOr hw h2; exact ⟨s, rfl⟩
    | none => exact ⟨"", rfl⟩

theorem wf_descOf {sub : Json} (hw : isWF sub = true) :
    ∃ s, (fieldOr sub "description").getD (Json.str "") = Json.str s := by
  cases h1 : fieldOr sub "description" with
  | some v => obtain ⟨s, rfl⟩ := wf_fieldOr hw h1; exact ⟨s, by simp⟩
  | none => exact ⟨"", by simp⟩

theorem wf_buildHtmlSnippet {sub : Json} (hw : isWF sub = true) (nowStr : List Char) :
    ∃ s, buildHtmlSnippet sub nowStr = Except.ok s := by
  obtain ⟨fu, hfu⟩ := wf_fileUrlOf hw
  obtain ⟨de, hde⟩ := wf_descOf hw
  rw [buildHtmlSnippet, hfu, hde]
  exact ⟨_, rfl⟩

theorem wf_targetOf_safe {sub : Json} (hw : isWF sub = true) (hp : noProtoB sub = true) :
    ∃ t, targetOf sub = Except.ok t ∧ t ≠ Target.protoMember := by
  rw [targetOf]
  rw [noProtoB] at hp
  cases hc : chooseTargetByUrl (fileUrlOf sub) with
  | protoMember => rw [hc] at hp; cases hp
  | page p => exact ⟨Target.page p, rfl, by intro h; cases h⟩
  | null =>
    rw [hc] at hp
    cases hf : fieldOr sub "type" with
    | none => exact ⟨Target.null, rfl, by intro h; cases h⟩
    | some v =>
      obtain ⟨s, rfl⟩ := wf_fieldOr hw hf
      rw [hf] at hp
      dsimp only at hp
      refine ⟨TARGET_MAP (s.data.map lc), rfl, ?_⟩
      intro hEq
      rw [hEq] at hp
      cases hp

theorem processOne_eq (nowStr : List Char) (docs : Docs) (sub : Json)
    (t : Target) :
    targetOf sub = Except.ok t →
    processOne nowStr docs sub =
      match t with
      | Target.null => Except.ok docs
      | Target.protoMember => Except.error ()
      | Target.page tgt =>
        match buildHtmlSnippet sub nowStr with
        | Except.error e => Except.error e
        | Except.ok snip =>
          match insertIntoHtmlAtTop (lookupDoc docs tgt) snip with
          | some newDoc => Except.ok (setDoc docs tgt newDoc)
          | none => Except.ok docs := by
  intro ht
  cases t with
  | null => rw [processOne, ht]; rfl
  | protoMember => rw [processOne, ht]; rfl
  | page tgt =>
    rw [processOne, ht]
    cases buildHtmlSnippet sub nowStr <;> rfl

theorem wf_processOne {sub : Json} (hw : isWF sub = true) (hp : noProtoB sub = true)
    (nowStr : List Char) (docs : Docs) :
    ∃ d, processOne nowStr docs sub = Except.ok d := by
  obtain ⟨t, ht, hne⟩ := wf_targetOf_safe hw hp
  rw [processOne_eq nowStr docs sub t ht]
  cases t with
  | null => exact ⟨docs, rfl⟩
  | protoMember => exact absurd rfl hne
  | page tgt =>
    obtain ⟨s, hs⟩ := wf_buildHtmlSnippet hw nowStr
    dsimp only
    rw [hs]
    dsimp only
    cases hins : insertIntoHtmlAtTop (lookupDoc docs tgt) s with
    | none => exact ⟨docs, rfl⟩
    | some nd => exact ⟨setDoc docs tgt nd, rfl⟩

theorem processOne_proto_crash (nowStr : List Char) (docs : Docs) (sub : Json)
    (ht : targetOf sub = Except.ok Target.protoMember) :
    processOne nowStr docs sub = Except.error () := by
  rw [processOne, ht]
  rfl

theorem wf_foldProcess {batch : List Json}
    (hw : batch.all (fun r => isWF r && noProtoB r) = true)
    (nowStr : List Char) (docs : Docs) :
    ∃ d, foldProcess nowStr docs batch = Except.ok d := by
  induction batch generalizing docs with
  | nil => exact ⟨docs, rfl⟩
  | cons sub rest ih =>
    rw [List.all_cons, Bool.and_eq_true] at hw
    rw [Bool.and_eq_true] at hw
    obtain ⟨d1, hd1⟩ := wf_processOne hw.1.1 hw.1.2 nowStr docs
    obtain ⟨d2, hd2⟩ := ih hw.2 d1
    exact ⟨d2, by rw [foldProcess, hd1]; exact hd2⟩

theorem wf_rawNameOf {sub : Json} (hw : isWF sub = true) :
    ∃ s, (fieldOr sub "name").getD ((fieldOr sub "username").getD (Json.str "submission")) =
      Json.str s := by
  cases h1 : fieldOr sub "name" with
  | some v => obtain ⟨s, rfl⟩ := wf_fieldOr hw h1; exact ⟨s, by simp⟩
  | none =>
    cases h2 : fieldOr sub "username" with
    | some v => obtain ⟨s, rfl⟩ := wf_fieldOr hw h2; exact ⟨s, by simp⟩
    | none => exact ⟨"submission", by simp⟩

theorem wf_buildHtmlSnippetA {sub : Json} (hw : isWF sub = true) :
    ∃ s, buildHtmlSnippetA sub = Except.ok s := by
  obtain ⟨rn, hrn⟩ := wf_rawNameOf hw
  obtain ⟨de, hde⟩ := wf_descOf hw
  rw [buildHtmlSnippetA, hrn, hde]
  exact ⟨_, rfl⟩

theorem boundaryExtAt_mem {l : List Char} {e : List Char}
    (h : boundaryExtAt l = some e) : e ∈ EXTS := by
  cases l with
  | nil => cases h
  | cons c r =>
    rw [boundaryExtAt] at h
    by_cases hc : c = '.'
    · rw [if_pos hc] at h
      obtain ⟨a, ha, hfa⟩ := List.exists_of_findSome?_eq_some h
      cases hst : stripCI r a with
      | none => rw [hst] at hfa; cases hfa
      | some rest =>
        cases rest with
        | nil =>
          rw [hst] at hfa
          injection hfa with he
          rw [← he]; exact ha
        | cons c2 r2 =>
          rw [hst] at hfa
          dsimp only at hfa
          by_cases hb : c2 = '?' || c2 = '#'
          · rw [if_pos hb] at hfa
            injection hfa with he
            rw [← he]; exact ha
          · rw [if_neg hb] at hfa; cases hfa
    · rw [if_neg hc] at h; cases h

theorem boundaryExt_mem {l : List Char} {e : List Char}
    (h : findBoundaryExt l = some e) : e ∈ EXTS := by
  induction l with
  | nil => cases h
  | cons c cs ih =>
    rw [findBoundaryExt] at h
    cases hb : boundaryExtAt (c :: cs) with
    | some x =>
      rw [hb] at h
      injection h with he
      rw [← he]; exact boundaryExtAt_mem hb
    | none =>
      rw [hb] at h
      exact ih h

theorem TARGET_MAP_exts {e : List Char} (h : e ∈ EXTS) :
    ∃ t, TARGET_MAP e = Target.page t := by
  simp only [EXTS, List.mem_cons, List.not_mem_nil, or_false] at h
  rcases h with rfl | rfl | rfl | rfl | rfl | rfl
  · exact ⟨"images.html", by decide⟩
  · exact ⟨"images.html", by decide⟩
  · exact ⟨"images.html", by decide⟩
  · exact ⟨"images.html", by decide⟩
  · exact ⟨"gifs.html", by decide⟩
  · exact ⟨"audio.html", by decide⟩

theorem wf_targetOfA_safe {sub : Json} (hw : isWF sub = true)
    (hp : noProtoA sub = true) :
    ∃ t, targetOfA (fileUrlOf sub) = Except.ok t ∧ t ≠ Target.protoMember := by
  obtain ⟨s, hs⟩ := wf_fileUrlOf hw
  rw [noProtoA, hs] at hp
  rw [hs, targetOfA]
  cases hc : chooseTargetByUrl (Json.str s) with
  | protoMember => rw [hc] at hp; cases hp
  | page p => exact ⟨Target.page p, rfl, by intro hEq; exact Target.noConfusion hEq⟩
  | null =>
    dsimp only
    cases hb : findBoundaryExt s.data with
    | none => exact ⟨Target.null, rfl, by intro hEq; exact Target.noConfusion hEq⟩
    | some e =>
      obtain ⟨t, htm⟩ := TARGET_MAP_exts (boundaryExt_mem hb)
      dsimp only
      rw [htm]
      exact ⟨Target.page t, rfl, by intro hEq; exact Target.noConfusion hEq⟩

theorem processOneA_eq (nowIso : List Char) (docs : Docs) (sub : Json)
    (t : Target) :
    targetOfA (fileUrlOf sub) = Except.ok t →
    processOneA nowIso docs sub =
      match t with
      | Target.null => Except.ok (docs, dbgBase nowIso sub none)
      | Target.protoMember => Except.error ()
      | Target.page tgt =>
        match buildHtmlSnippetA sub with
        | Except.error e => Except.error e
        | Except.ok snip =>
          match insertIntoHtmlAtTopA (lookupDoc docs tgt) snip with
          | some nd =>
            Except.ok (setDoc docs tgt nd,
              { dbgBase nowIso sub (some tgt) with
                  targetPath := some tgt,
                  targetExists := (lookupDoc docs tgt).isSome,
                  snippetPreview := some (previewOf snip),
                  inserted := true })
          | none =>
            Except.ok (docs,
              { dbgBase nowIso sub (some tgt) with
                  targetPath := some tgt,
                  targetExists := (lookupDoc docs tgt).isSome,
                  snippetPreview := some (previewOf snip) }) := by
  intro ht
  cases t with
  | null => rw [processOneA, ht]; rfl
  | protoMember => rw [processOneA, ht]; rfl
  | page tgt =>
    rw [processOneA, ht]
    cases buildHtmlSnippetA sub with
    | error e => rfl
    | ok snip => cases insertIntoHtmlAtTopA (lookupDoc docs tgt) snip <;> rfl

theorem wf_processOneA {sub : Json} (hw : isWF sub = true) (hp : noProtoA sub = true)
    (nowIso : List Char) (docs : Docs) :
    ∃ r, processOneA nowIso docs sub = Except.ok r := by
  obtain ⟨t, ht, hne⟩ := wf_targetOfA_safe hw hp
  rw [processOneA_eq nowIso docs sub t ht]
  cases t with
  | null => exact ⟨_, rfl⟩
  | protoMember => exact absurd rfl hne
  | page tgt =>
    obtain ⟨s, hs⟩ := wf_buildHtmlSnippetA hw
    dsimp only
    rw [hs]
    dsimp only
    cases hins : insertIntoHtmlAtTopA (lookupDoc docs tgt) s with
    | none => exact ⟨_, rfl⟩
    | some nd => exact ⟨_, rfl⟩

theorem processOneA_proto_crash (nowIso : List Char) (docs : Docs) (sub : Json)
    (ht : targetOfA (fileUrlOf sub) = Except.ok Target.protoMember) :
    processOneA nowIso docs sub = Except.error () := by
  rw [processOneA, ht]
  rfl

theorem wf_foldProcessA {batch : List Json}
    (hw : batch.all (fun r => isWF r && noProtoA r) = true)
    (nowIso : List Char) (docs : Docs) (dbg : List DbgEntry) :
    ∃ r, foldProcessA nowIso docs dbg batch = Except.ok r := by
  induction batch generalizing docs dbg with
  | nil => exact ⟨(docs, dbg), rfl⟩
  | cons sub rest ih =>
    rw [List.all_cons, Bool.and_eq_true] at hw
    rw [Bool.and_eq_true] at hw
    obtain ⟨⟨d1, e1⟩, hd1⟩ := wf_processOneA hw.1.1 hw.1.2 nowIso docs
    obtain ⟨r2, hd2⟩ := ih hw.2 d1 (dbg ++ [e1])
    exact ⟨r2, by rw [foldProcessA, hd1]; exact hd2⟩

theorem processOneA_skip (nowIso : List Char) (docs : Docs) (sub : Json)
    (ht : targetOfA (fileUrlOf sub) = Except.ok Target.null) :
    processOneA nowIso docs sub = Except.ok (docs, dbgBase nowIso sub none) := by
  rw [processOneA, ht]
  rfl

theorem readSubs_ensure (q : QFile) : readSubs (ensureQFile q) = readSubs q := by
  cases q <;> rfl

theorem drainMain_skip_eq (st : DrainSt)
    (h : st.now - (st.cool.getD 0) < COOLDOWN_MS) :
    drainMain st = ⟨Outcome.skipped, st.cool, st.qfile, st.docs⟩ := by
  rw [drainMain, if_pos h]

theorem drainMainA_skip_eq (st : DrainSt) (nowIso : List Char)
    (h : st.now - (st.cool.getD 0) < COOLDOWN_MS) :
    drainMainA st nowIso = ⟨Outcome.skipped, st.cool, st.qfile, st.docs, []⟩ := by
  rw [drainMainA, if_pos h]

theorem drainMain_idle_eq (st : DrainSt)
    (hcool : COOLDOWN_MS ≤ st.now - (st.cool.getD 0))
    (hq : readSubs st.qfile = []) :
    drainMain st = ⟨Outcome.idled, some st.idleEndTime, ensureQFile st.qfile, st.docs⟩ := by
  have hnc : ¬(st.now - (st.cool.getD 0) < COOLDOWN_MS) := by omega
  rw [drainMain, if_neg hnc]
  simp only [readSubs_ensure, hq]
  rfl

theorem drainMainA_idle_eq (st : DrainSt) (nowIso : List Char)
    (hcool : COOLDOWN_MS ≤ st.now - (st.cool.getD 0))
    (hq : readSubs st.qfile = []) :
    drainMainA st nowIso =
      ⟨Outcome.idled, some st.idleEndTime, ensureQFile st.qfile, st.docs, []⟩ := by
  have hnc : ¬(st.now - (st.cool.getD 0) < COOLDOWN_MS) := by omega
  rw [drainMainA, if_neg hnc]
  simp only [readSubs_ensure, hq]
  rfl

theorem drainMain_process (st : DrainSt) (q : List Json)
    (hcool : COOLDOWN_MS ≤ st.now - (st.cool.getD 0))
    (hq : readSubs st.qfile = q) (hne : q ≠ [])
    (hwf : q.all (fun r => isWF r && noProtoB r) = true) :
    ∃ d, foldProcess st.nowStr st.docs (q.take MAX_PER_RUN) = Except.ok d ∧
      drainMain st = ⟨Outcome.processed (q.take MAX_PER_RUN).length, some st.endTime,
        QFile.val (Json.arr (q.drop MAX_PER_RUN)), d⟩ := by
  have hnc : ¬(st.now - (st.cool.getD 0) < COOLDOWN_MS) := by omega
  have hq' : readSubs (ensureQFile st.qfile) = q := by rw [readSubs_ensure, hq]
  have hwf5 : (q.take MAX_PER_RUN).all (fun r => isWF r && noProtoB r) = true := by
    rw [List.all_eq_true] at hwf ⊢
    exact fun x hx => hwf x (List.mem_of_mem_take hx)
  obtain ⟨d, hd⟩ := wf_foldProcess hwf5 st.nowStr st.docs
  refine ⟨d, hd, ?_⟩
  rw [drainMain, if_neg hnc]
  simp only [readSubs_ensure, hq]
  obtain ⟨x, xs, rfl⟩ : ∃ x xs, q = x :: xs := by
    cases q with
    | nil => exact absurd rfl hne
    | cons x xs => exact ⟨x, xs, rfl⟩
  simp only [List.isEmpty_cons, if_false]
  rw [hd]
  rfl

theorem drainMainA_process (st : DrainSt) (nowIso : List Char) (q : List Json)
    (hcool : COOLDOWN_MS ≤ st.now - (st.cool.getD 0))
    (hq : readSubs st.qfile = q) (hne : q ≠ [])
    (hwf : q.all (fun r => isWF r && noProtoA r) = true) :
    ∃ r, foldProcessA nowIso st.docs [] (q.take MAX_PER_RUN) = Except.ok r ∧
      drainMainA st nowIso = ⟨Outcome.processed (q.take MAX_PER_RUN).length, some st.endTime,
        QFile.val (Json.arr (q.drop MAX_PER_RUN)), r.1, r.2⟩ := by
  have hnc : ¬(st.now - (st.cool.getD 0) < COOLDOWN_MS) := by omega
  have hwf5 : (q.take MAX_PER_RUN).all (fun r => isWF r && noProtoA r) = true := by
    rw [List.all_eq_true] at hwf ⊢
    exact fun x hx => hwf x (List.mem_of_mem_take hx)
  obtain ⟨r, hr⟩ := wf_foldProcessA hwf5 nowIso st.docs []
  refine ⟨r, hr, ?_⟩
  rw [drainMainA, if_neg hnc]
  simp only [readSubs_ensure, hq]
  obtain ⟨x, xs, rfl⟩ : ∃ x xs, q = x :: xs := by
    cases q with
    | nil => exact absurd rfl hne
    | cons x xs => exact ⟨x, xs, rfl⟩
  simp only [List.isEmpty_cons, if_false]
  rw [hr]
  rfl

/-- C1: refuted as stated — the claim follows the spec ("all per-record
faults are contained within batch processing"; the Process outcome pops
exactly min(k, MAX_PER_RUN) records and persists the remainder), but the
program diverges from it: a well-formed record whose `file_url` path
extension is an `Object.prototype` key (here `.constructor`) makes
`TARGET_MAP[ext]` yield an inherited function, `path.join(REPO_ROOT,
target)` throws, and `main` exits with NOTHING popped: the queue file is
never rewritten (the record stays queued) and the cooldown is not armed,
in both `process_queue` variants. -/
theorem drain_proto_crash_trace :
    isWF (Json.obj [("username", Json.str "u"),
      ("file_url", Json.str "http://a/x.constructor")]) = true ∧
    chooseTargetByUrl (Json.str "http://a/x.constructor") = Target.protoMember ∧
    drainMain ⟨200000, 1, 2, "L".data, some 0,
        QFile.val (Json.arr [Json.obj [("username", Json.str "u"),
          ("file_url", Json.str "http://a/x.constructor")]]), []⟩ =
      ⟨Outcome.crashed, some 0,
        QFile.val (Json.arr [Json.obj [("username", Json.str "u"),
          ("file_url", Json.str "http://a/x.constructor")]]), []⟩ ∧
    drainMainA ⟨200000, 1, 2, "L".data, some 0,
        QFile.val (Json.arr [Json.obj [("username", Json.str "u"),
          ("file_url", Json.str "http://a/x.constructor")]]), []⟩ "I".data =
      ⟨Outcome.crashed, some 0,
        QFile.val (Json.arr [Json.obj [("username", Json.str "u"),
          ("file_url", Json.str "http://a/x.constructor")]]), [], []⟩ := by
  exact ⟨by decide, by decide, rfl, rfl⟩

/-- C4: when the second of two drain invocations runs while the
cooldown is active (`now - lastCooldownTimestamp < COOLDOWN_WINDOW`),
both `process_queue` variants skip: the whole state — target documents,
queue file and cooldown marker — is left unchanged and no debug entry
is written. -/
theorem drain_cooldown_skip (st : DrainSt) (nowIso : List Char)
    (h : st.now - (st.cool.getD 0) < COOLDOWN_MS) :
    drainMain st = ⟨Outcome.skipped, st.cool, st.qfile, st.docs⟩ ∧
    drainMainA st nowIso = ⟨Outcome.skipped, st.cool, st.qfile, st.docs, []⟩ :=
  ⟨drainMain_skip_eq st h, drainMainA_skip_eq st nowIso h⟩

/-- Witness for C4: a run directly after a cooldown write is skipped. -/
theorem drain_cooldown_skip_witness :
    drainMain ⟨100000, 1, 2, "L".data, some 50000,
        QFile.val (Json.arr [Json.obj [("file_url", Json.str "http://a/x.gif")]]),
        [("gifs.html", "<div id=\"submissions\"></div>".data)]⟩ =
      ⟨Outcome.skipped, some 50000,
        QFile.val (Json.arr [Json.obj [("file_url", Json.str "http://a/x.gif")]]),
        [("gifs.html", "<div id=\"submissions\"></div>".data)]⟩ :=
  (drain_cooldown_skip _ "I".data (by decide)).1

/-- C9: on an expired cooldown and an empty queue both variants take
the Idle outcome: no target document is read or mutated (the documents
pass through untouched, whatever they are) and the cooldown marker is
still updated to the time current after the idle wait. -/
theorem drain_idle_no_doc_mutation (st : DrainSt) (nowIso : List Char)
    (hcool : COOLDOWN_MS ≤ st.now - (st.cool.getD 0))
    (hq : readSubs st.qfile = []) :
    drainMain st = ⟨Outcome.idled, some st.idleEndTime, ensureQFile st.qfile, st.docs⟩ ∧
    drainMainA st nowIso =
      ⟨Outcome.idled, some st.idleEndTime, ensureQFile st.qfile, st.docs, []⟩ ∧
    (∀ docs', (drainMain { st with docs := docs' }).docs = docs') :=
  ⟨drainMain_idle_eq st hcool hq, drainMainA_idle_eq st nowIso hcool hq,
    fun docs' => by rw [drainMain_idle_eq { st with docs := docs' } hcool hq]⟩

/-- Witness for C9: an idle run on a concrete empty queue arms the
cooldown with the post-idle time and keeps the documents. -/
theorem drain_idle_no_doc_mutation_witness :
    drainMain ⟨400000, 520000, 3, "L".data, some 100000, QFile.val (Json.arr []),
        [("audio.html", "<div id='submissions'></div>".data)]⟩ =
      ⟨Outcome.idled, some 520000, QFile.val (Json.arr []),
        [("audio.html", "<div id='submissions'></div>".data)]⟩ :=
  (drain_idle_no_doc_mutation
    ⟨400000, 520000, 3, "L".data, some 100000, QFile.val (Json.arr []),
      [("audio.html", "<div id='submissions'></div>".data)]⟩ "I".data (by decide) rfl).1

/-- C10: a queue file holding valid JSON that is not an array is
treated as an empty queue by both intake and drain: intake persists a
one-element array holding only the new record, and drain (cooldown
expired) takes the Idle path without touching any document. -/
theorem nonarray_queue_treated_empty (j : Json) (hj : j.isArr = false) :
    (∀ env nowIso st r, st.qfile = QFile.val j → intakeNewSub env nowIso = some r →
      (intakeMain env nowIso st).qfile = QFile.val (Json.arr [subToJson r])) ∧
    (∀ st : DrainSt, st.qfile = QFile.val j →
      COOLDOWN_MS ≤ st.now - (st.cool.getD 0) →
      drainMain st = ⟨Outcome.idled, some st.idleEndTime, QFile.val j, st.docs⟩) := by
  have hread : readSubs (QFile.val j) = [] := by
    cases j <;> simp [readSubs, Json.isArr] at hj ⊢
  constructor
  · intro env nowIso st r hqf hnew
    rw [intakeMain, hnew, hqf]
    show QFile.val (Json.arr (readSubs (ensureQFile (QFile.val j)) ++ [subToJson r])) = _
    rw [show ensureQFile (QFile.val j) = QFile.val j from rfl, hread]
    rfl
  · intro st hqf hc
    have hr : readSubs st.qfile = [] := by rw [hqf, hread]
    rw [drainMain_idle_eq st hc hr, hqf]
    rfl

/-- Witness for C10: queue file holding the JSON string "oops". -/
theorem nonarray_queue_treated_empty_witness :
    (intakeMain ⟨"bob", "", "http://a/x.gif", "d"⟩ "2024" 
        ⟨QFile.val (Json.str "oops"), [], []⟩).qfile =
      QFile.val (Json.arr [subToJson ⟨"bob", "bob", "http://a/x.gif", "d", "2024"⟩]) ∧
    drainMain ⟨400000, 520000, 3, "L".data, some 100000, QFile.val (Json.str "oops"), []⟩ =
      ⟨Outcome.idled, some 520000, QFile.val (Json.str "oops"), []⟩ := by
  have h := nonarray_queue_treated_empty (Json.str "oops") rfl
  exact ⟨h.1 ⟨"bob", "", "http://a/x.gif", "d"⟩ "2024"
      ⟨QFile.val (Json.str "oops"), [], []⟩ ⟨"bob", "bob", "http://a/x.gif", "d", "2024"⟩
      rfl rfl,
    h.2 ⟨400000, 520000, 3, "L".data, some 100000, QFile.val (Json.str "oops"), []⟩
      rfl (by decide)⟩

/-- C6: an intake input given through the issue-body channel that the
grammar rejects (fewer than two non-empty lines, or a malformed line 1
or line 2, i.e. `parseIssueBody` returns nothing) leaves the parsed
queue unchanged, adds exactly one entry to the failure ledger carrying
the timestamp, the username and the raw offending text, and leaves the
success ledger alone. -/
theorem intake_reject_queue_unchanged (env : IntakeEnv) (nowIso : String) (st : IntakeSt)
    (hb : env.ISSUE_BODY ≠ "")
    (hp : parseIssueBody (usernameOf env) nowIso env.ISSUE_BODY.data = none) :
    (intakeMain env nowIso st).qfile = ensureQFile st.qfile ∧
    readSubs (intakeMain env nowIso st).qfile = readSubs st.qfile ∧
    (intakeMain env nowIso st).failLog =
      ⟨tsOf nowIso, usernameOf env,
        Json.obj [("username", Json.str (usernameOf env)),
                  ("body", Json.str env.ISSUE_BODY)]⟩ :: st.failLog ∧
    (intakeMain env nowIso st).okLog = st.okLog := by
  have hnew : intakeNewSub env nowIso = none := by
    rw [intakeNewSub, if_pos hb, hp]
  rw [intakeMain, hnew]
  exact ⟨rfl, readSubs_ensure st.qfile, rfl, rfl⟩

/-- Witness for C6: the one-line body "x" is rejected and ledgered. -/
theorem intake_reject_queue_unchanged_witness :
    (intakeMain ⟨"bob", "x", "", ""⟩ "2024-01-01T00:00:00.000Z"
        ⟨QFile.val (Json.arr [Json.str "q"]), [], []⟩).failLog =
      [⟨"2024-01-01T00-00-00-000Z", "bob",
        Json.obj [("username", Json.str "bob"), ("body", Json.str "x")]⟩] ∧
    (intakeMain ⟨"bob", "x", "", ""⟩ "2024-01-01T00:00:00.000Z"
        ⟨QFile.val (Json.arr [Json.str "q"]), [], []⟩).qfile =
      QFile.val (Json.arr [Json.str "q"]) := by
  have h := intake_reject_queue_unchanged ⟨"bob", "x", "", ""⟩ "2024-01-01T00:00:00.000Z"
    ⟨QFile.val (Json.arr [Json.str "q"]), [], []⟩ (by decide) rfl
  exact ⟨by rw [h.2.2.1]; rfl, h.1⟩

/-- Does the first list begin with the second (character-exact)? -/
def listBegins : List Char → List Char → Bool
  | _, [] => true
  | [], _ :: _ => false
  | c :: cs, p :: ps => c = p && listBegins cs ps

/-- Does the second list occur anywhere in the first? -/
def containsSeg (l pat : List Char) : Bool :=
  match l with
  | [] => listBegins [] pat
  | c :: cs => listBegins (c :: cs) pat || containsSeg cs pat

/-- Counterexample to C2: the first `process_queue` variant inserts a
record's fragment into a document that has no `submissions` marker at
all (here before `</body>`), so a marker-less document does receive the
fragment at another position and the insertion does not fail. -/
theorem insert_missing_marker_cx :
    findDiv "submissions".data "<body></body>".data = none ∧
    (drainMainA ⟨200000, 1, 2, "L".data, some 0,
        QFile.val (Json.arr [Json.obj [("username", Json.str "u"),
          ("file_url", Json.str "http://a/c.gif"), ("description", Json.str "d")]]),
        [("gifs.html", "<body></body>".data)]⟩ "I".data).docs ≠
      [("gifs.html", "<body></body>".data)] ∧
    ((drainMainA ⟨200000, 1, 2, "L".data, some 0,
        QFile.val (Json.arr [Json.obj [("username", Json.str "u"),
          ("file_url", Json.str "http://a/c.gif"), ("description", Json.str "d")]]),
        [("gifs.html", "<body></body>".data)]⟩ "I".data).dbg.map
      (fun e => e.inserted)) = [true] := by
  refine ⟨by decide, by decide, by rfl⟩

/-- C2 (amended): in the second `process_queue` variant the claim holds
as stated: a missing target document or a document without the
`submissions` marker makes the insertion fail, the documents stay
untouched by that record, and the record is dropped (for a batch whose
routing never lands on an inherited `Object.prototype` member the
persisted remainder is `q.drop MAX_PER_RUN`, which never re-queues it;
a prototype-member routing instead crashes the run before the queue is
rewritten).  In the first variant the insertion failure occurs only
when the `submissions` marker, the `content` marker and `</body>` are
all absent; a document lacking the `submissions` marker can still
receive the fragment at a fallback position. -/
theorem insert_missing_marker_drops_record :
    (∀ snip, insertIntoHtmlAtTop none snip = none) ∧
    (∀ doc snip, findDiv "submissions".data doc = none →
        insertIntoHtmlAtTop (some doc) snip = none) ∧
    (∀ nowStr docs sub tgt snip, targetOf sub = Except.ok (Target.page tgt) →
        buildHtmlSnippet sub nowStr = Except.ok snip →
        insertIntoHtmlAtTop (lookupDoc docs tgt) snip = none →
        processOne nowStr docs sub = Except.ok docs) ∧
    (∀ st q, COOLDOWN_MS ≤ st.now - (st.cool.getD 0) → readSubs st.qfile = q →
        q ≠ [] → q.all (fun r => isWF r && noProtoB r) = true →
        (drainMain st).qfile = QFile.val (Json.arr (q.drop MAX_PER_RUN))) ∧
    (∀ doc snip, findDiv "submissions".data doc = none →
        findDiv "content".data doc = none → findBodyClose doc = none →
        insertIntoHtmlAtTopA (some doc) snip = none) ∧
    (∀ nowStr docs sub, targetOf sub = Except.ok Target.protoMember →
        processOne nowStr docs sub = Except.error ()) := by
  refine ⟨fun snip => rfl, ?_, ?_, ?_, ?_, ?_⟩
  · intro doc snip h
    simp only [insertIntoHtmlAtTop, h]
  · intro nowStr docs sub tgt snip ht hb hins
    rw [processOne_eq nowStr docs sub (Target.page tgt) ht]
    dsimp only
    rw [hb]
    dsimp only
    rw [hins]
  · intro st q hc hq hne hwf
    obtain ⟨d, _, hm⟩ := drainMain_process st q hc hq hne hwf
    rw [hm]
  · intro doc snip h1 h2 h3
    simp only [insertIntoHtmlAtTopA, h1, h2, h3]
  · intro nowStr docs sub ht
    exact processOne_proto_crash nowStr docs sub ht

/-- Witness for C2: a missing document and a marker-less document both
make the strict insertion fail. -/
theorem insert_missing_marker_drops_record_witness :
    insertIntoHtmlAtTop (some "<div id=\"content\"></div>".data) "X".data = none ∧
    insertIntoHtmlAtTop none "X".data = none := by
  have h := insert_missing_marker_drops_record
  exact ⟨h.2.1 "<div id=\"content\"></div>".data "X".data (by decide), h.1 "X".data⟩

/-- Counterexample to C7: a URL whose path extension (query stripped)
is the unmapped `php` is still routed — the fallback regex finds `.gif`
at the end of the query string — and its fragment is inserted, where
the claim says the record must be dropped. -/
theorem routing_fallback_cx :
    chooseTargetByUrl (Json.str "https://a/b.php?x=.gif") = Target.null ∧
    targetOfA (Json.str "https://a/b.php?x=.gif") = Except.ok (Target.page "gifs.html") ∧
    (drainMainA ⟨200000, 1, 2, "L".data, some 0,
        QFile.val (Json.arr [Json.obj [("username", Json.str "u"),
          ("file_url", Json.str "https://a/b.php?x=.gif")]]),
        [("gifs.html", "<div id=\"submissions\"></div>".data)]⟩ "I".data).docs ≠
      [("gifs.html", "<div id=\"submissions\"></div>".data)] := by
  refine ⟨by decide, by decide, by decide⟩

/-- C7 (amended): the first variant routes by the primary derivation
(path extension, case-insensitive, query string ignored, prototype
members of `TARGET_MAP` included) and, when that is null, by a fallback
regex seeking a known extension followed by end-of-string, `?` or `#`
anywhere in the URL; the fallback can only yield the six mapped pages.
A record failing both derivations (e.g. `.bmp`) is skipped: it is
debug-logged with no decided target and not inserted, the documents are
untouched by it, and for a batch free of prototype-member routing the
persisted remainder (`q.drop MAX_PER_RUN`) excludes it, so it is never
re-queued; a record whose primary derivation lands on a prototype
member instead crashes the run. -/
theorem routing_unmapped_dropped :
    (∀ s, targetOfA (Json.str s) = Except.ok
        (match chooseTargetByUrl (Json.str s) with
         | Target.null =>
           match findBoundaryExt s.data with
           | some e => TARGET_MAP e
           | none => Target.null
         | t => t)) ∧
    (∀ s e, findBoundaryExt s = some e → ∃ t, TARGET_MAP e = Target.page t) ∧
    (∀ nowIso docs sub, targetOfA (fileUrlOf sub) = Except.ok Target.null →
        processOneA nowIso docs sub = Except.ok (docs, dbgBase nowIso sub none) ∧
        (dbgBase nowIso sub none).decidedTarget = none ∧
        (dbgBase nowIso sub none).inserted = false) ∧
    (∀ st nowIso q, COOLDOWN_MS ≤ st.now - (st.cool.getD 0) → readSubs st.qfile = q →
        q ≠ [] → q.all (fun r => isWF r && noProtoA r) = true →
        (drainMainA st nowIso).qfile = QFile.val (Json.arr (q.drop MAX_PER_RUN))) ∧
    (∀ nowIso docs sub, targetOfA (fileUrlOf sub) = Except.ok Target.protoMember →
        processOneA nowIso docs sub = Except.error ()) := by
  refine ⟨?_, ?_, ?_, ?_, ?_⟩
  · intro s
    rw [targetOfA]
    cases h : chooseTargetByUrl (Json.str s) with
    | null => rfl
    | protoMember => rfl
    | page t => rfl
  · intro s e h
    exact TARGET_MAP_exts (boundaryExt_mem h)
  · intro nowIso docs sub ht
    exact ⟨processOneA_skip nowIso docs sub ht, rfl, rfl⟩
  · intro st nowIso q hc hq hne hwf
    obtain ⟨r, _, hm⟩ := drainMainA_process st nowIso q hc hq hne hwf
    rw [hm]
  · intro nowIso docs sub ht
    exact processOneA_proto_crash nowIso docs sub ht

/-- Witness for C7: a `.bmp` record is skipped with an uninserted debug
entry, and a `.bmp` URL routes nowhere under either derivation. -/
theorem routing_unmapped_dropped_witness :
    processOneA "I".data [] (Json.obj [("file_url", Json.str "https://a/b.bmp")]) =
      Except.ok ([], dbgBase "I".data (Json.obj [("file_url", Json.str "https://a/b.bmp")]) none) ∧
    targetOfA (Json.str "https://a/b.bmp") = Except.ok
      (match chooseTargetByUrl (Json.str "https://a/b.bmp") with
       | Target.null =>
         match findBoundaryExt "https://a/b.bmp".data with
         | some e => TARGET_MAP e
         | none => Target.null
       | t => t) := by
  exact ⟨(routing_unmapped_dropped.2.2.1 "I".data []
      (Json.obj [("file_url", Json.str "https://a/b.bmp")]) (by decide)).1,
    routing_unmapped_dropped.1 "https://a/b.bmp"⟩

set_option maxRecDepth 8192 in
/-- Counterexample to C8: a URL routed to the audio page by the routing
derivation (extension `mp3` after stripping the query) is rendered with
an image element, not an audio player, because the rendering check
`endsWith(".mp3")` runs on the full URL including the query string. -/
theorem media_vs_routing_cx :
    chooseTargetByUrl (Json.str "http://a/s.mp3?x=1") = Target.page "audio.html" ∧
    (buildHtmlSnippet (Json.obj [("username", Json.str "u"),
        ("file_url", Json.str "http://a/s.mp3?x=1")]) "L".data).map
      (fun s => (containsSeg s "<audio".data,
        containsSeg s "<img class=\"submission-media\"".data)) =
      Except.ok (false, true) := by
  constructor
  · decide
  · rfl

/-- C8 (amended): the media element of the second variant's card is an
audio player precisely when the record's full URL, lowercased, ends in
".mp3" — the query string is not stripped for this check, unlike the
routing derivation — and an image element otherwise. -/
theorem media_element_by_suffix (sub : Json) (nowStr : List Char) (fu de : String)
    (hfu : fileUrlOf sub = Json.str fu)
    (hde : (fieldOr sub "description").getD (Json.str "") = Json.str de) :
    ∃ pre post,
      buildHtmlSnippet sub nowStr = Except.ok (pre ++ (mediaHtmlOf fu.data de.data ++ post)) ∧
      (".mp3".data.isSuffixOf (fu.data.map lc) = true →
        mediaHtmlOf fu.data de.data = audioTag fu.data) ∧
      (".mp3".data.isSuffixOf (fu.data.map lc) = false →
        mediaHtmlOf fu.data de.data = imgTag fu.data de.data) := by
  refine ⟨cardPre ((fieldOr sub "username").getD (Json.str "unknown")) nowStr,
    cardPost de.data, ?_, ?_, ?_⟩
  · rw [buildHtmlSnippet, hfu, hde]
    rfl
  · intro h
    simp [mediaHtmlOf, isAudioUrl, h]
  · intro h
    simp [mediaHtmlOf, isAudioUrl, h]

/-- Witness for C8: a plain mp3 URL gets the audio element. -/
theorem media_element_by_suffix_witness :
    ∃ pre post,
      buildHtmlSnippet (Json.obj [("file_url", Json.str "http://a/s.mp3")]) "L".data =
        Except.ok (pre ++ (mediaHtmlOf "http://a/s.mp3".data "".data ++ post)) ∧
      (".mp3".data.isSuffixOf ("http://a/s.mp3".data.map lc) = true →
        mediaHtmlOf "http://a/s.mp3".data "".data = audioTag "http://a/s.mp3".data) ∧
      (".mp3".data.isSuffixOf ("http://a/s.mp3".data.map lc) = false →
        mediaHtmlOf "http://a/s.mp3".data "".data = imgTag "http://a/s.mp3".data "".data) :=
  media_element_by_suffix (Json.obj [("file_url", Json.str "http://a/s.mp3")]) "L".data
    "http://a/s.mp3" "" rfl rfl

theorem seg_stable (u t t' : List Char) :
    segUntilGt (u ++ '>' :: t) = segUntilGt (u ++ '>' :: t') := by
  induction u with
  | nil => rfl
  | cons c cs ih =>
    simp only [List.cons_append, segUntilGt]
    by_cases h : c = '>'
    · simp [h]
    · simp [h, ih]

theorem seg_spec {r s : List Char} (h : segUntilGt r = some s) :
    ∃ tail, r = s ++ '>' :: tail := by
  induction r generalizing s with
  | nil => simp [segUntilGt] at h
  | cons c cs ih =>
    rw [segUntilGt] at h
    by_cases hc : c = '>'
    · rw [if_pos hc] at h
      cases h
      exact ⟨cs, by rw [hc]; rfl⟩
    · rw [if_neg hc] at h
      cases hs : segUntilGt cs with
      | none => rw [hs] at h; cases h
      | some s' =>
        rw [hs] at h
        cases h
        obtain ⟨tail, htail⟩ := ih hs
        exact ⟨tail, by rw [htail]; rfl⟩

theorem matchAt_short_none (idname : List Char) (u t : List Char) (hu : u.length ≤ 4) :
    matchDivAt idname (u ++ '>' :: t) = none := by
  rcases u with _ | ⟨a, _ | ⟨b, _ | ⟨c, _ | ⟨d, _ | ⟨e, u'⟩⟩⟩⟩⟩
  · rcases t with _ | ⟨c1, _ | ⟨c2, _ | ⟨c3, _ | ⟨c4, rest⟩⟩⟩⟩ <;> rfl
  · rcases t with _ | ⟨c2, _ | ⟨c3, _ | ⟨c4, rest⟩⟩⟩ <;> simp [matchDivAt, lc]
  · rcases t with _ | ⟨c3, _ | ⟨c4, rest⟩⟩ <;> simp [matchDivAt, lc]
  · rcases t with _ | ⟨c4, rest⟩ <;> simp [matchDivAt, lc]
  · simp [matchDivAt, isJsWs]
  · simp at hu

theorem matchAt_stable (idname : List Char) (u t t' : List Char) :
    matchDivAt idname (u ++ '>' :: t) = matchDivAt idname (u ++ '>' :: t') := by
  rcases u with _ | ⟨a, _ | ⟨b, _ | ⟨c, _ | ⟨d, _ | ⟨e, u'⟩⟩⟩⟩⟩
  · rw [matchAt_short_none idname [] t (by simp), matchAt_short_none idname [] t' (by simp)]
  · rw [matchAt_short_none idname [a] t (by simp), matchAt_short_none idname [a] t' (by simp)]
  · rw [matchAt_short_none idname [a, b] t (by simp),
      matchAt_short_none idname [a, b] t' (by simp)]
  · rw [matchAt_short_none idname [a, b, c] t (by simp),
      matchAt_short_none idname [a, b, c] t' (by simp)]
  · rw [matchAt_short_none idname [a, b, c, d] t (by simp),
      matchAt_short_none idname [a, b, c, d] t' (by simp)]
  · simp only [List.cons_append, matchDivAt]
    rw [seg_stable u' t t']

theorem matchAt_shape {idname m : List Char} {n : Nat}
    (h : matchDivAt idname m = some n) :
    ∃ u tail, m = u ++ '>' :: tail ∧ u.length + 1 = n ∧ 5 ≤ u.length := by
  rcases m with _ | ⟨c0, _ | ⟨c1, _ | ⟨c2, _ | ⟨c3, _ | ⟨c4, rest⟩⟩⟩⟩⟩ <;>
    simp only [matchDivAt] at h
  · cases h
  · cases h
  · cases h
  · cases h
  · cases h
  · split at h
    · cases hseg : segUntilGt rest with
      | none => rw [hseg] at h; cases h
      | some seg =>
        rw [hseg] at h
        dsimp only at h
        by_cases hcont : containsIdPat idname seg = true
        · rw [if_pos hcont] at h
          cases h
          obtain ⟨tail, htail⟩ := seg_spec hseg
          refine ⟨[c0, c1, c2, c3, c4] ++ seg, tail, ?_, ?_, ?_⟩
          · rw [htail]; rfl
          · simp only [List.length_append, List.length_cons, List.length_nil]
            omega
          · simp only [List.length_append, List.length_cons, List.length_nil]
            omega
        · rw [if_neg hcont] at h; cases h
    · cases h

theorem matchAt_n_ge6 {idname l : List Char} {n : Nat}
    (h : matchDivAt idname l = some n) : 6 ≤ n := by
  obtain ⟨u, tail, _, hlen, hu⟩ := matchAt_shape h
  omega

theorem findDiv_n_ge6 {idname l : List Char} {i n : Nat}
    (h : findDiv idname l = some (i, n)) : 6 ≤ n := by
  induction l generalizing i with
  | nil => simp [findDiv] at h
  | cons c cs ih =>
    rw [findDiv] at h
    cases hm : matchDivAt idname (c :: cs) with
    | some n0 =>
      rw [hm] at h
      cases h
      exact matchAt_n_ge6 hm
    | none =>
      rw [hm] at h
      cases hf : findDiv idname cs with
      | none => rw [hf] at h; cases h
      | some p =>
        rw [hf] at h
        cases h
        exact ih hf

theorem findDiv_stable (idname : List Char) (u : List Char) :
    ∀ (t t' : List Char) (i n : Nat),
    findDiv idname (u ++ '>' :: t) = some (i, n) → i + n ≤ u.length + 1 →
    findDiv idname (u ++ '>' :: t') = some (i, n) := by
  induction u with
  | nil =>
    intro t t' i n h hle
    have h6 : 6 ≤ n := findDiv_n_ge6 h
    simp only [List.length_nil] at hle
    omega
  | cons c cs ih =>
    intro t t' i n h hle
    rw [List.cons_append] at h ⊢
    rw [findDiv] at h ⊢
    have hst := matchAt_stable idname (c :: cs) t t'
    rw [List.cons_append, List.cons_append] at hst
    cases hm : matchDivAt idname (c :: (cs ++ '>' :: t)) with
    | some n0 =>
      rw [hm] at h hst
      rw [← hst]
      exact h
    | none =>
      rw [hm] at h hst
      rw [← hst]
      cases hf : findDiv idname (cs ++ '>' :: t) with
      | none => rw [hf] at h; cases h
      | some p =>
        rw [hf] at h
        obtain ⟨a, b⟩ := p
        have hmap : (some (a + 1, b) : Option (Nat × Nat)) = some (i, n) := h
        injection hmap with hpair
        have hi : a + 1 = i := congrArg Prod.fst hpair
        have hn : b = n := congrArg Prod.snd hpair
        simp only [List.length_cons] at hle
        have hih : findDiv idname (cs ++ '>' :: t') = some (a, b) :=
          ih t t' a b hf (by omega)
        rw [hih]
        show some (a + 1, b) = some (i, n)
        rw [hi, hn]

theorem findDiv_shape {idname l : List Char} {i n : Nat}
    (h : findDiv idname l = some (i, n)) :
    ∃ u tail, l = u ++ '>' :: tail ∧ u.length + 1 = i + n := by
  induction l generalizing i with
  | nil => simp [findDiv] at h
  | cons c cs ih =>
    rw [findDiv] at h
    cases hm : matchDivAt idname (c :: cs) with
    | some n0 =>
      rw [hm] at h
      simp only [Option.some.injEq, Prod.mk.injEq] at h
      obtain ⟨hi, hn⟩ := h
      obtain ⟨u, tail, hshape, hlen, _⟩ := matchAt_shape hm
      exact ⟨u, tail, hshape, by omega⟩
    | none =>
      rw [hm] at h
      cases hf : findDiv idname cs with
      | none => rw [hf] at h; cases h
      | some p =>
        rw [hf] at h
        obtain ⟨a, b⟩ := p
        simp only [Option.map_some, Option.some.injEq, Prod.mk.injEq] at h
        obtain ⟨hi, hn⟩ := h
        obtain ⟨u, tail, hshape, hlen⟩ := ih hf
        refine ⟨c :: u, tail, by rw [hshape]; rfl, ?_⟩
        simp only [List.length_cons]
        omega

/-- C5: inserting fragment A and then fragment B into a document whose
`submissions` marker regex first matches at index i with length n
yields [document through the end of the marker's opening tag, B, A,
pre-existing tail]: each insertion splices immediately after the
marker's opening tag (position i+n), so the last-inserted fragment is
topmost, and all pre-existing bytes before and after the insertion
point are unchanged. -/
theorem insert_newest_first (doc A B : List Char) (i n : Nat)
    (h : findDiv "submissions".data doc = some (i, n)) :
    insertIntoHtmlAtTop (some doc) A =
      some (doc.take (i + n) ++ '\n' :: (A ++ '\n' :: doc.drop (i + n))) ∧
    insertIntoHtmlAtTop
        (some (doc.take (i + n) ++ '\n' :: (A ++ '\n' :: doc.drop (i + n)))) B =
      some (doc.take (i + n) ++
        '\n' :: (B ++ '\n' :: ('\n' :: (A ++ '\n' :: doc.drop (i + n))))) := by
  obtain ⟨u, tail, rfl, hlen⟩ := findDiv_shape h
  have htake : (u ++ '>' :: tail).take (i + n) = u ++ ['>'] := by
    rw [← hlen, List.take_append]
    rfl
  have hdrop : (u ++ '>' :: tail).drop (i + n) = tail := by
    rw [← hlen, List.drop_append]
    rfl
  have hd1 : (u ++ '>' :: tail).take (i + n) ++
      '\n' :: (A ++ '\n' :: (u ++ '>' :: tail).drop (i + n)) =
      u ++ '>' :: ('\n' :: (A ++ '\n' :: tail)) := by
    rw [htake, hdrop, List.append_assoc]
    rfl
  have hfind1 : findDiv "submissions".data
      ((u ++ '>' :: tail).take (i + n) ++
        '\n' :: (A ++ '\n' :: (u ++ '>' :: tail).drop (i + n))) = some (i, n) := by
    rw [hd1]
    exact findDiv_stable "submissions".data u tail ('\n' :: (A ++ '\n' :: tail)) i n h
      (by omega)
  constructor
  · simp only [insertIntoHtmlAtTop, h]
    rfl
  · simp only [insertIntoHtmlAtTop, hfind1]
    show some (splice _ (i + n) B) = _
    rw [splice, hd1]
    rw [show ((u ++ '>' :: ('\n' :: (A ++ '\n' :: tail))).take (i + n)) = u ++ ['>'] from by
      rw [← hlen, List.take_append]; rfl]
    rw [show ((u ++ '>' :: ('\n' :: (A ++ '\n' :: tail))).drop (i + n)) =
        '\n' :: (A ++ '\n' :: tail) from by
      rw [← hlen, List.drop_append]; rfl]
    rw [htake, hdrop, List.append_assoc]

/-- Witness for C5 at a concrete page: two successive insertions put
the later fragment on top, directly after the marker's opening tag. -/
theorem insert_newest_first_witness :
    insertIntoHtmlAtTop (some "<div id=\"submissions\"><p>old</p></div>".data) "A".data =
      some ("<div id=\"submissions\"><p>old</p></div>".data.take 22 ++
        '\n' :: ("A".data ++ '\n' ::
          "<div id=\"submissions\"><p>old</p></div>".data.drop 22)) ∧
    insertIntoHtmlAtTop
        (some ("<div id=\"submissions\"><p>old</p></div>".data.take 22 ++
          '\n' :: ("A".data ++ '\n' ::
            "<div id=\"submissions\"><p>old</p></div>".data.drop 22))) "B".data =
      some ("<div id=\"submissions\"><p>old</p></div>".data.take 22 ++
        '\n' :: ("B".data ++ '\n' :: ('\n' :: ("A".data ++ '\n' ::
          "<div id=\"submissions\"><p>old</p></div>".data.drop 22)))) :=
  insert_newest_first "<div id=\"submissions\"><p>old</p></div>".data "A".data "B".data 0 22
    (by decide)

theorem urlMatchAt_take {l m : List Char} (h : urlMatchAt l = some m) :
    ∃ kk, m = l.take kk := by
  rw [urlMatchAt] at h
  cases hs : stripHttp l with
  | none => rw [hs] at h; cases h
  | some p =>
    obtain ⟨k, r⟩ := p
    rw [hs] at h
    dsimp only at h
    cases hd : lastValidDot (r.takeWhile fun c => !(isJsWs c)) with
    | none => rw [hd] at h; cases h
    | some q =>
      obtain ⟨d, n⟩ := q
      rw [hd] at h
      cases h
      exact ⟨k + d + n, rfl⟩

theorem findUrl_sub {l m : List Char} (h : findUrlMatch l = some m) :
    ∃ a b, l = a ++ (m ++ b) := by
  induction l with
  | nil => simp [findUrlMatch] at h
  | cons c cs ih =>
    rw [findUrlMatch] at h
    cases hu : urlMatchAt (c :: cs) with
    | some m0 =>
      rw [hu] at h
      cases h
      obtain ⟨kk, hk⟩ := urlMatchAt_take hu
      exact ⟨[], (c :: cs).drop kk, by rw [List.nil_append, hk, List.take_append_drop]⟩
    | none =>
      rw [hu] at h
      obtain ⟨a, b, hab⟩ := ih h
      exact ⟨c :: a, b, by rw [List.cons_append, ← hab]⟩

theorem findUrl_isSome_cons {c : Char} {cs : List Char}
    (h : (findUrlMatch cs).isSome = true) : (findUrlMatch (c :: cs)).isSome = true := by
  rw [findUrlMatch]
  cases hu : urlMatchAt (c :: cs) with
  | some m => rfl
  | none => exact h

theorem findUrl_of_suffix : ∀ (a s : List Char), (urlMatchAt s).isSome = true →
    (findUrlMatch (a ++ s)).isSome = true := by
  intro a
  induction a with
  | nil =>
    intro s hs
    cases s with
    | nil => simp [urlMatchAt, stripHttp, stripCI] at hs
    | cons c cs =>
      rw [List.nil_append, findUrlMatch]
      cases hu : urlMatchAt (c :: cs) with
      | some m => rfl
      | none => rw [hu] at hs; simp at hs
  | cons x xs ih =>
    intro s hs
    rw [List.cons_append, findUrlMatch]
    cases hu : urlMatchAt (x :: (xs ++ s)) with
    | some m => rfl
    | none => exact ih s hs

theorem paren_to_dot {run : List Char} {d n : Nat}
    (h : lastValidDotParen run = some (d, n)) : (lastValidDot run).isSome = true := by
  rw [lastValidDotParen] at h
  have hmem := List.mem_of_mem_getLast? h
  obtain ⟨d0, hd0, hf⟩ := List.mem_filterMap.mp hmem
  rw [lastValidDot, List.getLast?_isSome]
  split at hf
  · cases hf
  · rename_i h0
    split at hf
    · rename_i after heq
      cases hext : extHere after with
      | none => rw [hext] at hf; cases hf
      | some k =>
        rw [hext] at hf
        have hgoal : (fun d => if d = 0 then none
            else
              match run.drop d with
              | '.' :: after => (extHere after).map (fun k => (d, k + 1))
              | _ => none) d0 = some (d0, k + 1) := by
          show (if d0 = 0 then none
            else
              match run.drop d0 with
              | '.' :: after => (extHere after).map (fun k => (d0, k + 1))
              | _ => none) = some (d0, k + 1)
          rw [if_neg h0, heq]
          show (extHere after).map (fun k => (d0, k + 1)) = some (d0, k + 1)
          rw [hext]
          rfl
        exact List.ne_nil_of_mem (List.mem_filterMap.mpr ⟨d0, hd0, hgoal⟩)
    · cases hf

theorem mdUrlAt_gives {l m : List Char} (h : mdUrlAt l = some m) :
    ∃ a r2, l = a ++ r2 ∧ (urlMatchAt r2).isSome = true := by
  rcases l with _ | ⟨c0, _ | ⟨c1, r⟩⟩
  · simp [mdUrlAt] at h
  · simp [mdUrlAt] at h
  · rw [mdUrlAt] at h
    split at h
    · split at h
      · rename_i c2 c3 r2 heq
        split at h
        · cases hs : stripHttp r2 with
          | none => rw [hs] at h; cases h
          | some p =>
            obtain ⟨k, r3⟩ := p
            rw [hs] at h
            dsimp only at h
            cases hp : lastValidDotParen (r3.takeWhile fun c => !(isJsWs c)) with
            | none => rw [hp] at h; cases h
            | some q =>
              obtain ⟨dd, nn⟩ := q
              refine ⟨c0 :: c1 :: ((r.take (r.takeWhile (fun c => c ≠ ']')).length) ++
                [c2, c3]), r2, ?_, ?_⟩
              · rw [List.cons_append, List.cons_append, List.append_assoc]
                show c0 :: c1 :: r =
                  c0 :: c1 :: (r.take (r.takeWhile (fun c => c ≠ ']')).length ++
                    (c2 :: c3 :: r2))
                rw [← heq, List.take_append_drop]
              · rw [urlMatchAt, hs]
                dsimp only
                cases hd : lastValidDot (r3.takeWhile fun c => !(isJsWs c)) with
                | none =>
                  have hps := paren_to_dot hp
                  rw [hd] at hps
                  simp at hps
                | some q2 => rfl
        · cases h
      · cases h
    · cases h

theorem md_implies_plain {l m : List Char} (h : findMdUrl l = some m) :
    (findUrlMatch l).isSome = true := by
  induction l with
  | nil => simp [findMdUrl] at h
  | cons c cs ih =>
    rw [findMdUrl] at h
    cases hmd : mdUrlAt (c :: cs) with
    | some m0 =>
      obtain ⟨a, r2, hsplit, hsome⟩ := mdUrlAt_gives hmd
      rw [hsplit]
      exact findUrl_of_suffix a r2 hsome
    | none =>
      rw [hmd] at h
      exact findUrl_isSome_cons (ih h)

/-- Counterexample to C3: a second line that is not itself a URL but
merely contains one is accepted (the URL regex is unanchored), where
the claim requires rejection; the stored `file_url` is the contained
match, not the whole line. -/
theorem line2_embedded_url_cx :
    parseIssueBody "alice" "T"
        "(alice) [2024-01-01]\nsee https://a.jpg please".data =
      some ⟨"alice", "alice", "https://a.jpg", "", "2024-01-01"⟩ ∧
    ("see https://a.jpg please" : String) ≠ "https://a.jpg" := by
  exact ⟨by decide, by decide⟩

/-- C3 (amended): with at least two cleaned lines and a well-formed
line 1, intake accepts exactly when the second line CONTAINS a
substring matching `https?://<non-space>+.<ext>` (case-insensitive, no
anchors: text before or after the match does not cause rejection, and
any suffix after the extension — query, fragment or other text — is
permitted but excluded); the record's `file_url` is the leftmost such
match, which ends at the last recognised extension inside its
non-space run.  The markdown branch never decides acceptance: whenever
the markdown-image regex would match, the plain pattern already
does. -/
theorem line2_contains_url :
    (∀ uname nowIso body l0 l1 rest,
      prepLines body = l0 :: l1 :: rest →
      ∀ nm dt, parseLine1 l0 = some (nm, dt) →
      ((parseIssueBody uname nowIso body).isSome = true ↔
        (findUrlMatch l1).isSome = true) ∧
      (∀ m, findUrlMatch l1 = some m →
        parseIssueBody uname nowIso body =
          some ⟨uname, (jsTrim nm).asString, m.asString,
            (jsTrim (rest.headD [])).asString,
            if jsTrim dt = [] then nowIso else (jsTrim dt).asString⟩)) ∧
    (∀ l m, findUrlMatch l = some m → ∃ a b, l = a ++ (m ++ b)) ∧
    (∀ l m, findMdUrl l = some m → (findUrlMatch l).isSome = true) := by
  refine ⟨?_, fun l m h => findUrl_sub h, fun l m h => md_implies_plain h⟩
  intro uname nowIso body l0 l1 rest hlines nm dt hline1
  rw [parseIssueBody, hlines]
  dsimp only
  rw [hline1]
  dsimp only
  cases hfm : findUrlMatch l1 with
  | some u =>
    refine ⟨by simp, ?_⟩
    intro m hm
    cases hm
    rfl
  | none =>
    refine ⟨?_, ?_⟩
    · cases hmd : findMdUrl l1 with
      | none => simp
      | some mm =>
        have := md_implies_plain hmd
        rw [hfm] at this
        simp at this
    · intro m hm
      cases hm

/-- Witness for C3 on the grammar example from the spec. -/
theorem line2_contains_url_witness :
    parseIssueBody "alice" "T" "(alice) [2024-01-01]\nhttps://example.com/cat.gif\nfunny cat".data =
      some ⟨"alice", "alice", "https://example.com/cat.gif", "funny cat", "2024-01-01"⟩ := by
  have h := (line2_contains_url.1 "alice" "T"
      "(alice) [2024-01-01]\nhttps://example.com/cat.gif\nfunny cat".data
      "(alice) [2024-01-01]".data "https://example.com/cat.gif".data ["funny cat".data]
      (by decide) "alice".data "2024-01-01".data (by decide)).2
      "https://example.com/cat.gif".data (by decide)
  rw [h]
  rfl
